import Mathlib

/-!
Verification of the parallel-execution queueing and status-tracking code of
the erigon repository:

* `core/rawdb/accessors_indexes.go`: `TxTaskQueue` (a `container/heap`
  priority queue ordered by `Version().TxNum`), `QueueWithRetry` and
  `ResultsQueue`.
* `eth/stagedsync/exec3_status.go`: `execStatusManager` and its sorted-list
  and dependency-map helpers.

Go slices backing the heap are modelled as a function `Nat → α` together with
an explicit size; machine integers are modelled as `Nat`/`Int` (no overflow is
relevant at the sizes involved; the `j1 < 0` overflow guard of `container/heap`
is unreachable in this model).
-/

namespace Erigon

/-- A task handed to `QueueWithRetry`. Of the Go `Task` interface only the
heap ordering key `Version().TxNum` is relevant here; `tid` stands for the
rest of the payload and lets distinct tasks carry equal or distinct keys. -/
structure Task where
  txNum : Nat
  tid : Nat
deriving DecidableEq, Repr

instance : Inhabited Task := ⟨⟨0, 0⟩⟩

/-- An execution result handed to `ResultsQueue` (Go `Result`). Only the heap
ordering key `Version().TxNum` matters for the claims; `rid` stands for the
rest of the payload. -/
structure Result where
  txNum : Nat
  rid : Nat
deriving DecidableEq, Repr

instance : Inhabited Result := ⟨⟨0, 0⟩⟩

section Heap

variable {α : Type} (key : α → Nat)

/-- `TxTaskQueue.Less i j`: `h[i].Version().TxNum < h[j].Version().TxNum`.
The comparison uses only the TxNum of the version, never arrival order. -/
def lessAt (f : Nat → α) (i j : Nat) : Prop := key (f i) < key (f j)

instance (f : Nat → α) (i j : Nat) : Decidable (lessAt key f i j) :=
  inferInstanceAs (Decidable (key (f i) < key (f j)))

/-- `TxTaskQueue.Swap i j` on the function-array model. -/
def swapAt (f : Nat → α) (i j : Nat) : Nat → α :=
  fun k => if k = i then f j else if k = j then f i else f k

@[simp] theorem swapAt_left (f : Nat → α) (i j : Nat) : swapAt f i j i = f j := by
  simp [swapAt]

@[simp] theorem swapAt_right (f : Nat → α) (i j : Nat) : swapAt f i j j = f i := by
  by_cases h : j = i <;> simp [swapAt, h]

theorem swapAt_other (f : Nat → α) {i j k : Nat} (hi : k ≠ i) (hj : k ≠ j) :
    swapAt f i j k = f k := by
  simp [swapAt, hi, hj]

/-- Go `container/heap.up`: repeatedly swap the entry at `j` with its parent
`(j-1)/2` while it compares strictly less than the parent. -/
def up (f : Nat → α) (j : Nat) : Nat → α :=
  if (j - 1) / 2 = j ∨ ¬ lessAt key f j ((j - 1) / 2) then f
  else up (swapAt f ((j - 1) / 2) j) ((j - 1) / 2)
termination_by j
decreasing_by omega

/-- The child index `j` chosen by Go `container/heap.down` at node `i`:
the left child `2*i+1`, or the right child `2*i+2` when it is in range and
compares strictly less than the left child. -/
def childSel (f : Nat → α) (i n : Nat) : Nat :=
  if 2 * i + 2 < n ∧ lessAt key f (2 * i + 2) (2 * i + 1) then 2 * i + 2
  else 2 * i + 1

theorem childSel_bounds (f : Nat → α) {i n : Nat} (h : ¬ n ≤ 2 * i + 1) :
    i < childSel key f i n ∧ childSel key f i n < n := by
  rw [childSel]; split <;> omega

/-- Go `container/heap.down` bounded by `n`: repeatedly swap the entry at `i`
with its smaller child while that child compares strictly less than it. -/
def down (f : Nat → α) (i n : Nat) : Nat → α :=
  if n ≤ 2 * i + 1 then f
  else if ¬ lessAt key f (childSel key f i n) i then f
  else down (swapAt f i (childSel key f i n)) (childSel key f i n) n
termination_by n - i
decreasing_by
  rename_i h _
  have := childSel_bounds key f h
  omega

/-- Writing `x` into slot `n` of the backing array (the append performed by
the interface `Push` of `TxTaskQueue`). -/
def setAt (f : Nat → α) (n : Nat) (x : α) : Nat → α :=
  fun k => if k = n then x else f k

/-- `heap.Push`: the interface `Push` appends the new element at index `n`,
then `up` restores the order from the last index. -/
def heapPush (f : Nat → α) (n : Nat) (x : α) : Nat → α :=
  up key (setAt f n x) n

/-- `heap.Pop`: swap the root with the last entry, `down` over the first
`n - 1` entries, then the interface `Pop` removes and returns the last entry. -/
def heapPop (f : Nat → α) (n : Nat) : α × (Nat → α) :=
  let f2 := down key (swapAt f 0 (n - 1)) 0 (n - 1)
  (f2 (n - 1), f2)

/-- The heap order invariant of `container/heap` for the comparator
`TxTaskQueue.Less`: every entry is at least its parent. -/
def HeapInv (f : Nat → α) (n : Nat) : Prop :=
  ∀ j, j < n → 0 < j → key (f ((j - 1) / 2)) ≤ key (f j)

/-- The first `n` entries of the backing array, as a list. -/
def heapList (f : Nat → α) (n : Nat) : List α :=
  (List.range n).map f

/-- The first `n` entries of the backing array, as a multiset. -/
def heapMS (f : Nat → α) (n : Nat) : Multiset α :=
  Multiset.map f (Multiset.range n)

theorem heapMS_coe (f : Nat → α) (n : Nat) : heapMS f n = (heapList f n : Multiset α) := by
  simp [heapMS, heapList, Multiset.range]

theorem heapMS_congr {n : Nat} {f g : Nat → α} (h : ∀ k, k < n → f k = g k) :
    heapMS f n = heapMS g n := by
  refine Multiset.map_congr rfl ?_
  intro k hk
  exact h k (Multiset.mem_range.mp hk)

theorem heapMS_succ (f : Nat → α) (n : Nat) : heapMS f (n + 1) = f n ::ₘ heapMS f n := by
  simp [heapMS, Multiset.range_succ]

theorem heapMS_swapAt (f : Nat → α) {i j n : Nat} (hi : i < n) (hj : j < n) :
    heapMS (swapAt f i j) n = heapMS f n := by
  rcases eq_or_ne i j with rfl | hij
  · exact heapMS_congr fun k _ => by by_cases h : k = i <;> simp [swapAt, h]
  · have hnd : (Multiset.range n).Nodup := Multiset.nodup_range n
    have hmi : i ∈ Multiset.range n := Multiset.mem_range.mpr hi
    have hmj : j ∈ (Multiset.range n).erase i :=
      (Multiset.mem_erase_of_ne hij.symm).mpr (Multiset.mem_range.mpr hj)
    have hrg : Multiset.range n = i ::ₘ j ::ₘ ((Multiset.range n).erase i).erase j := by
      rw [Multiset.cons_erase hmj, Multiset.cons_erase hmi]
    have hnd' : ((Multiset.range n).erase i).Nodup := hnd.erase i
    have hother : ∀ k ∈ ((Multiset.range n).erase i).erase j, swapAt f i j k = f k := by
      intro k hk
      have hkj : k ≠ j := (hnd'.mem_erase_iff.mp hk).1
      have hki : k ≠ i := (hnd.mem_erase_iff.mp (hnd'.mem_erase_iff.mp hk).2).1
      exact swapAt_other f hki hkj
    rw [heapMS, heapMS, hrg]
    simp only [Multiset.map_cons, swapAt_left, swapAt_right]
    rw [Multiset.map_congr rfl hother, Multiset.cons_swap]

theorem up_heapMS : ∀ (j : Nat) (f : Nat → α) {m : Nat}, j < m →
    heapMS (up key f j) m = heapMS f m := by
  intro j
  induction j using Nat.strong_induction_on with
  | _ j ih =>
    intro f m hj
    rw [up]
    split
    · rfl
    · rename_i h
      push_neg at h
      have hij : (j - 1) / 2 < j := by omega
      rw [ih _ hij _ (lt_trans hij hj), heapMS_swapAt f (lt_trans hij hj) hj]

theorem up_apply_gt : ∀ (j : Nat) (f : Nat → α) {k : Nat}, j < k → up key f j k = f k := by
  intro j
  induction j using Nat.strong_induction_on with
  | _ j ih =>
    intro f k hk
    rw [up]
    split
    · rfl
    · rename_i h
      push_neg at h
      have hij : (j - 1) / 2 < j := by omega
      rw [ih _ hij _ (lt_trans hij hk),
        swapAt_other f (by omega : k ≠ (j - 1) / 2) (by omega : k ≠ j)]

theorem down_heapMS : ∀ (d i : Nat) (f : Nat → α) {n m : Nat}, n - i ≤ d → n ≤ m →
    heapMS (down key f i n) m = heapMS f m := by
  intro d
  induction d with
  | zero =>
    intro i f n m hd hm
    rw [down, if_pos (by omega)]
  | succ d ih =>
    intro i f n m hd hm
    rw [down]
    split
    · rfl
    · rename_i h1
      have hij := childSel_bounds key f h1
      split
      · rfl
      · rw [ih _ _ (by omega) hm,
          heapMS_swapAt f (by omega : i < m) (by omega : childSel key f i n < m)]

theorem down_apply_ge : ∀ (d i : Nat) (f : Nat → α) {n k : Nat}, n - i ≤ d → n ≤ k →
    down key f i n k = f k := by
  intro d
  induction d with
  | zero =>
    intro i f n k hd hk
    rw [down, if_pos (by omega)]
  | succ d ih =>
    intro i f n k hd hk
    rw [down]
    split
    · rfl
    · rename_i h1
      have hij := childSel_bounds key f h1
      split
      · rfl
      · rw [ih _ _ (by omega) hk,
          swapAt_other f (by omega : k ≠ i) (by omega : k ≠ childSel key f i n)]

theorem setAt_same (f : Nat → α) (n : Nat) (x : α) : setAt f n x n = x := by
  simp [setAt]

theorem setAt_other (f : Nat → α) {n k : Nat} (x : α) (h : k ≠ n) : setAt f n x k = f k := by
  simp [setAt, h]

theorem parent_eq_cases {k i : Nat} (hk : 0 < k) (h : (k - 1) / 2 = i) :
    k = 2 * i + 1 ∨ k = 2 * i + 2 := by omega

theorem childSel_parent (f : Nat → α) {i n : Nat} (h : ¬ n ≤ 2 * i + 1) :
    (childSel key f i n - 1) / 2 = i := by
  rw [childSel]; split <;> omega

theorem lessAt_iff (f : Nat → α) (i j : Nat) :
    lessAt key f i j ↔ key (f i) < key (f j) := Iff.rfl

theorem childSel_min (f : Nat → α) {i n : Nat} (h : ¬ n ≤ 2 * i + 1) {k : Nat}
    (hk : k < n) (hk0 : 0 < k) (hpar : (k - 1) / 2 = i)
    (hkj : k ≠ childSel key f i n) :
    key (f (childSel key f i n)) ≤ key (f k) := by
  have hcases := parent_eq_cases hk0 hpar
  rw [childSel] at hkj ⊢
  by_cases hc : 2 * i + 2 < n ∧ lessAt key f (2 * i + 2) (2 * i + 1)
  · rw [if_pos hc] at hkj ⊢
    have hk1 : k = 2 * i + 1 := by omega
    rw [hk1]
    exact le_of_lt ((lessAt_iff key f _ _).mp hc.2)
  · rw [if_neg hc] at hkj ⊢
    have hk2 : k = 2 * i + 2 := by omega
    rw [Classical.not_and_iff_or_not_not] at hc
    rcases hc with hc | hc
    · omega
    · rw [hk2]
      exact le_of_not_lt fun hlt => hc ((lessAt_iff key f _ _).mpr hlt)

theorem down_inv : ∀ (d i : Nat) (f : Nat → α) {n : Nat}, n - i ≤ d →
    (∀ k, k < n → 0 < k → (k - 1) / 2 ≠ i → key (f ((k - 1) / 2)) ≤ key (f k)) →
    (∀ k, k < n → (k - 1) / 2 = i → 0 < i → key (f ((i - 1) / 2)) ≤ key (f k)) →
    HeapInv key (down key f i n) n := by
  intro d
  induction d with
  | zero =>
    intro i f n hd h1 h2
    rw [down, if_pos (by omega)]
    intro k hk hk0
    rcases eq_or_ne ((k - 1) / 2) i with hpar | hpar
    · rcases parent_eq_cases hk0 hpar with hk1 | hk2 <;> omega
    · exact h1 k hk hk0 hpar
  | succ d ih =>
    intro i f n hd h1 h2
    rw [down]
    split
    · rename_i hguard
      intro k hk hk0
      rcases eq_or_ne ((k - 1) / 2) i with hpar | hpar
      · rcases parent_eq_cases hk0 hpar with hk1 | hk2 <;> omega
      · exact h1 k hk hk0 hpar
    · rename_i hguard
      have hij := childSel_bounds key f hguard
      have hjpar := childSel_parent key f hguard
      split
      · rename_i hless
        rw [lessAt_iff, not_lt] at hless
        intro k hk hk0
        rcases eq_or_ne ((k - 1) / 2) i with hpar | hpar
        · rw [hpar]
          rcases eq_or_ne k (childSel key f i n) with hkj | hkj
          · rw [hkj]; exact hless
          · exact le_trans hless (childSel_min key f hguard hk hk0 hpar hkj)
        · exact h1 k hk hk0 hpar
      · rename_i hless
        rw [not_not, lessAt_iff] at hless
        apply ih (childSel key f i n) _ (by omega)
        · intro k hk hk0 hpar
          rcases eq_or_ne k i with hik | hki
          · have hi0 : 0 < i := by omega
            have hpi : (i - 1) / 2 ≠ i := by omega
            have hpij : (i - 1) / 2 ≠ childSel key f i n := by omega
            rw [hik, swapAt_left, swapAt_other f hpi hpij]
            exact h2 (childSel key f i n) (by omega) hjpar hi0
          · rcases eq_or_ne k (childSel key f i n) with hkcs | hkj
            · rw [hkcs, swapAt_right, hjpar, swapAt_left]
              exact le_of_lt hless
            · rw [swapAt_other f hki hkj]
              rcases eq_or_ne ((k - 1) / 2) i with hpar2 | hpar2
              · rw [hpar2, swapAt_left]
                exact childSel_min key f hguard hk hk0 hpar2 hkj
              · rw [swapAt_other f hpar2 hpar]
                exact h1 k hk hk0 hpar2
        · intro k hk hpar hj0
          have hk0 : 0 < k := by omega
          have hkgt : childSel key f i n < k := by
            rcases parent_eq_cases hk0 hpar with hk1 | hk2 <;> omega
          have hki : k ≠ i := by omega
          have hkj : k ≠ childSel key f i n := by omega
          rw [hjpar, swapAt_left, swapAt_other f hki hkj]
          have hb := h1 k hk hk0 (by omega)
          rw [hpar] at hb
          exact hb

theorem up_inv : ∀ (j : Nat) (f : Nat → α) {n : Nat}, j < n →
    (∀ k, k < n → 0 < k → k ≠ j → key (f ((k - 1) / 2)) ≤ key (f k)) →
    (∀ k, k < n → 0 < k → (k - 1) / 2 = j → key (f ((j - 1) / 2)) ≤ key (f k)) →
    HeapInv key (up key f j) n := by
  intro j
  induction j using Nat.strong_induction_on with
  | _ j ih =>
    intro f n hj h1 h2
    rw [up]
    split
    · rename_i hstop
      intro k hk hk0
      rcases eq_or_ne k j with hkj' | hkj
      · rcases hstop with hstop | hstop
        · omega
        · rw [hkj']
          exact le_of_not_lt fun hlt => hstop ((lessAt_iff key f _ _).mpr hlt)
      · exact h1 k hk hk0 hkj
    · rename_i hgo
      push_neg at hgo
      obtain ⟨hne, hless⟩ := hgo
      rw [lessAt_iff] at hless
      have hj0 : 0 < j := by omega
      have hpj : (j - 1) / 2 < j := by omega
      apply ih ((j - 1) / 2) hpj _ (by omega)
      · intro k hk hk0 hki
        rcases eq_or_ne k j with hkj' | hkj
        · rw [hkj', swapAt_right, swapAt_left]
          exact le_of_lt hless
        · rw [swapAt_other f hki hkj]
          rcases eq_or_ne ((k - 1) / 2) ((j - 1) / 2) with hpar | hpar
          · rw [hpar, swapAt_left]
            have : key (f ((k - 1) / 2)) ≤ key (f k) := h1 k hk hk0 hkj
            rw [hpar] at this
            exact le_trans (le_of_lt hless) this
          · rcases eq_or_ne ((k - 1) / 2) j with hpar2 | hpar2
            · rw [hpar2, swapAt_right]
              have := h2 k hk hk0 hpar2
              exact this
            · rw [swapAt_other f hpar hpar2]
              exact h1 k hk hk0 hkj
      · intro k hk hk0 hpar
        rcases eq_or_ne k j with hkj' | hkj
        · rw [hkj', swapAt_right]
          rcases Nat.eq_zero_or_pos ((j - 1) / 2) with hi0 | hi0
          · have hp0 : ((j - 1) / 2 - 1) / 2 = (j - 1) / 2 := by omega
            rw [hp0, swapAt_left]
            exact le_of_lt hless
          · rw [swapAt_other f (by omega) (by omega)]
            exact h1 ((j - 1) / 2) (by omega) hi0 (by omega)
        · have hki : k ≠ (j - 1) / 2 := by omega
          rw [swapAt_other f hki hkj]
          rcases Nat.eq_zero_or_pos ((j - 1) / 2) with hi0 | hi0
          · have hp0 : ((j - 1) / 2 - 1) / 2 = (j - 1) / 2 := by omega
            rw [hp0, swapAt_left]
            have hb := h1 k hk hk0 hkj
            rw [hpar] at hb
            exact le_trans (le_of_lt hless) hb
          · rw [swapAt_other f (by omega) (by omega)]
            have ha := h1 ((j - 1) / 2) (by omega) hi0 (by omega)
            have hb := h1 k hk hk0 hkj
            rw [hpar] at hb
            exact le_trans ha hb

/-- In a heap satisfying the order invariant the root carries the minimum
`TxNum` among the first `n` entries. -/
theorem heapInv_root_min {f : Nat → α} {n : Nat} (h : HeapInv key f n) :
    ∀ j, j < n → key (f 0) ≤ key (f j) := by
  intro j
  induction j using Nat.strong_induction_on with
  | _ j ih =>
    intro hj
    rcases Nat.eq_zero_or_pos j with rfl | hj0
    · exact le_refl _
    · exact le_trans (ih ((j - 1) / 2) (by omega) (by omega)) (h j hj hj0)

theorem heapPush_inv {f : Nat → α} {n : Nat} (h : HeapInv key f n) (x : α) :
    HeapInv key (heapPush key f n x) (n + 1) := by
  apply up_inv key n _ (Nat.lt_succ_self n)
  · intro k hk hk0 hkn
    have hk' : k < n := by omega
    rw [setAt_other f x hkn, setAt_other f x (by omega : (k - 1) / 2 ≠ n)]
    exact h k hk' hk0
  · intro k hk hk0 hpar
    rcases parent_eq_cases hk0 hpar with hk1 | hk2 <;> omega

theorem heapPush_heapMS (f : Nat → α) (n : Nat) (x : α) :
    heapMS (heapPush key f n x) (n + 1) = x ::ₘ heapMS f n := by
  rw [heapPush, up_heapMS key n _ (Nat.lt_succ_self n), heapMS_succ, setAt_same]
  congr 1
  exact heapMS_congr fun k hk => setAt_other f x (by omega)

theorem heapPop_fst (f : Nat → α) {n : Nat} (hn : 0 < n) :
    (heapPop key f n).1 = f 0 := by
  show down key (swapAt f 0 (n - 1)) 0 (n - 1) (n - 1) = f 0
  rw [down_apply_ge key (n - 1) 0 (swapAt f 0 (n - 1)) (n := n - 1) (k := n - 1)
    (le_refl _) (le_refl _), swapAt_right]

theorem heapPop_inv {f : Nat → α} {n : Nat} (hn : 0 < n) (h : HeapInv key f n) :
    HeapInv key (heapPop key f n).2 (n - 1) := by
  apply down_inv key (n - 1) 0 _ (by omega)
  · intro k hk hk0 hpar
    rw [swapAt_other f (by omega : k ≠ 0) (by omega : k ≠ n - 1),
      swapAt_other f hpar (by omega : (k - 1) / 2 ≠ n - 1)]
    exact h k (by omega) hk0
  · intro k hk hpar hi
    omega

theorem heapPop_heapMS (f : Nat → α) {n : Nat} (hn : 0 < n) :
    heapMS f n = (heapPop key f n).1 ::ₘ heapMS (heapPop key f n).2 (n - 1) := by
  have h2 : heapMS (heapPop key f n).2 n = heapMS f n := by
    show heapMS (down key (swapAt f 0 (n - 1)) 0 (n - 1)) n = heapMS f n
    rw [down_heapMS key (n - 1) 0 (swapAt f 0 (n - 1)) (n := n - 1) (m := n)
      (le_refl _) (by omega), heapMS_swapAt f (by omega) (by omega)]
  have h3 : heapMS (heapPop key f n).2 n =
      (heapPop key f n).2 (n - 1) ::ₘ heapMS (heapPop key f n).2 (n - 1) := by
    conv_lhs => rw [show n = (n - 1) + 1 by omega]
    exact heapMS_succ _ (n - 1)
  rw [← h2, h3]
  rfl

/-- Repeatedly popping the heap until it is empty (the `PopNext`-until-empty
loop of `ResultsQueueIter`). -/
def drainAll : (n : Nat) → (Nat → α) → List α
  | 0, _ => []
  | n + 1, f => (heapPop key f (n + 1)).1 :: drainAll n (heapPop key f (n + 1)).2

theorem drainAll_heapMS : ∀ (n : Nat) (f : Nat → α), HeapInv key f n →
    (drainAll key n f : Multiset α) = heapMS f n := by
  intro n
  induction n with
  | zero =>
    intro f _
    simp [drainAll, heapMS]
  | succ n ih =>
    intro f h
    have hpop := heapPop_inv key (Nat.succ_pos n) h
    simp only [Nat.add_sub_cancel] at hpop
    rw [drainAll]
    have hcoe : ((heapPop key f (n + 1)).1 :: drainAll key n (heapPop key f (n + 1)).2 :
        Multiset α) = (heapPop key f (n + 1)).1 ::ₘ
        (drainAll key n (heapPop key f (n + 1)).2 : Multiset α) := rfl
    rw [hcoe, ih _ hpop]
    have := heapPop_heapMS key f (Nat.succ_pos n)
    simp only [Nat.add_sub_cancel] at this
    exact this.symm

theorem drainAll_sorted : ∀ (n : Nat) (f : Nat → α), HeapInv key f n →
    (drainAll key n f).Pairwise (fun a b => key a ≤ key b) := by
  intro n
  induction n with
  | zero =>
    intro f _
    simp [drainAll]
  | succ n ih =>
    intro f h
    have hpop := heapPop_inv key (Nat.succ_pos n) h
    simp only [Nat.add_sub_cancel] at hpop
    rw [drainAll]
    refine List.Pairwise.cons ?_ (ih _ hpop)
    intro b hb
    have hbms : b ∈ (drainAll key n (heapPop key f (n + 1)).2 : Multiset α) := by
      simpa using hb
    rw [drainAll_heapMS key n _ hpop] at hbms
    have hbfull : b ∈ heapMS f (n + 1) := by
      have := heapPop_heapMS key f (Nat.succ_pos n)
      simp only [Nat.add_sub_cancel] at this
      rw [this]
      exact Multiset.mem_cons_of_mem hbms
    obtain ⟨k, hk, rfl⟩ := Multiset.mem_map.mp hbfull
    rw [heapPop_fst key f (Nat.succ_pos n)]
    exact heapInv_root_min key h k (Multiset.mem_range.mp hk)

end Heap

/-! ### ResultsQueue (`accessors_indexes.go`)

The result channel is modelled as a FIFO list, the internal `TxTaskQueue`
heap as a backing function plus explicit size.  `NewResultsQueue` runs
`heap.Init` on the empty heap, which is the identity, so the new queue
simply starts with size 0.  The periodic ticker only matters for `Close`
(`ticker.Stop()`), modelled as a flag. -/

structure ResultsQueue where
  limit : Nat
  closed : Bool
  chClosed : Bool
  tickerStopped : Bool
  resultCh : List Result
  resultsF : Nat → Result
  resultsN : Nat

def newResultsQueue (heapLimit : Nat) : ResultsQueue :=
  { limit := heapLimit
    closed := false
    chClosed := false
    tickerStopped := false
    resultCh := []
    resultsF := fun _ => default
    resultsN := 0 }

/-- `ResultsQueue.Add`: the completed effect of a send on the result channel
(blocking on a full channel is producer backpressure, not modelled). -/
def ResultsQueue.add (q : ResultsQueue) (t : Result) : ResultsQueue :=
  { q with resultCh := q.resultCh ++ [t] }

/-- The receive loop of `drainNoBlock`: receive results without blocking,
push each into the heap, return once the heap size exceeds the soft limit
or the channel has no more ready results. -/
def drainLoop (limit : Nat) : List Result → (Nat → Result) → Nat →
    ((Nat → Result) × Nat × List Result)
  | [], f, n => (f, n, [])
  | t :: rest, f, n =>
    if limit < n + 1 then (heapPush Result.txNum f n t, n + 1, rest)
    else drainLoop limit rest (heapPush Result.txNum f n t) (n + 1)

/-- `ResultsQueue.DrainNonBlocking` = `drainNoBlock(ctx, nil)`. -/
def ResultsQueue.drainNonBlocking (q : ResultsQueue) : ResultsQueue :=
  { q with resultsF := (drainLoop q.limit q.resultCh q.resultsF q.resultsN).1
           resultsN := (drainLoop q.limit q.resultCh q.resultsF q.resultsN).2.1
           resultCh := (drainLoop q.limit q.resultCh q.resultsF q.resultsN).2.2 }

/-- `ResultsQueueIter.HasNext`: the heap is non-empty. -/
def ResultsQueue.hasNext (q : ResultsQueue) : Bool :=
  decide (0 < q.resultsN)

/-- `ResultsQueueIter.PopNext`: `heap.Pop` on the internal heap. -/
def ResultsQueue.popNext (q : ResultsQueue) : Result × ResultsQueue :=
  ((heapPop Result.txNum q.resultsF q.resultsN).1,
   { q with resultsF := (heapPop Result.txNum q.resultsF q.resultsN).2
            resultsN := q.resultsN - 1 })

/-- The sequence of results delivered by calling `PopNext` repeatedly while
`HasNext` holds; see `popNextAll_step` and `popNextAll_empty`. -/
def ResultsQueue.popNextAll (q : ResultsQueue) : List Result :=
  drainAll Result.txNum q.resultsN q.resultsF

theorem popNextAll_step (q : ResultsQueue) (h : q.hasNext = true) :
    q.popNextAll = q.popNext.1 :: q.popNext.2.popNextAll := by
  have h0 : 0 < q.resultsN := by
    have := of_decide_eq_true h
    exact this
  obtain ⟨m, hm⟩ : ∃ m, q.resultsN = m + 1 := ⟨q.resultsN - 1, by omega⟩
  rw [ResultsQueue.popNextAll, ResultsQueue.popNextAll, ResultsQueue.popNext, hm, drainAll]
  simp

theorem popNextAll_empty (q : ResultsQueue) (h : q.hasNext = false) :
    q.popNextAll = [] := by
  have h0 : ¬ 0 < q.resultsN := of_decide_eq_false h
  have hz : q.resultsN = 0 := by omega
  rw [ResultsQueue.popNextAll, hz, drainAll]

theorem foldl_add_resultCh (rs : List Result) : ∀ (q : ResultsQueue),
    rs.foldl ResultsQueue.add q =
      { q with resultCh := q.resultCh ++ rs } := by
  induction rs with
  | nil => intro q; simp
  | cons t rest ih =>
    intro q
    rw [List.foldl_cons, ih]
    simp [ResultsQueue.add]

theorem drainLoop_complete : ∀ (ch : List Result) (f : Nat → Result) (n : Nat)
    {limit : Nat}, n + ch.length ≤ limit → HeapInv Result.txNum f n →
    HeapInv Result.txNum (drainLoop limit ch f n).1 (drainLoop limit ch f n).2.1 ∧
    heapMS (drainLoop limit ch f n).1 (drainLoop limit ch f n).2.1 =
      heapMS f n + (ch : Multiset Result) ∧
    (drainLoop limit ch f n).2.2 = [] := by
  intro ch
  induction ch with
  | nil =>
    intro f n limit hlim hinv
    refine ⟨hinv, ?_, rfl⟩
    simp [drainLoop]
  | cons t rest ih =>
    intro f n limit hlim hinv
    have hguard : ¬ limit < n + 1 := by
      simp only [List.length_cons] at hlim
      omega
    rw [drainLoop, if_neg hguard]
    have hrest : n + 1 + rest.length ≤ limit := by
      simp only [List.length_cons] at hlim
      omega
    obtain ⟨h1, h2, h3⟩ := ih (heapPush Result.txNum f n t) (n + 1)
      hrest (heapPush_inv Result.txNum hinv t)
    refine ⟨h1, ?_, h3⟩
    rw [h2, heapPush_heapMS]
    rw [Multiset.cons_add, ← Multiset.cons_coe, ← Multiset.add_cons, Multiset.cons_coe]

/-- C1: a set of results with pairwise distinct TxNums, added to the
`ResultsQueue` in an arbitrary order and drained into the internal heap, is
returned by the repeated-`PopNext` loop as a permutation of the input in
strictly ascending TxNum order; the heap comparator `lessAt` consults only
`Version().TxNum`. -/
theorem resultsQueue_popNextAll_sorted (rs : List Result) (limit : Nat)
    (hnd : (rs.map Result.txNum).Nodup) (hlim : rs.length ≤ limit) :
    ((rs.foldl ResultsQueue.add (newResultsQueue limit)).drainNonBlocking.popNextAll.Perm rs ∧
     ((rs.foldl ResultsQueue.add
        (newResultsQueue limit)).drainNonBlocking.popNextAll.map Result.txNum).Pairwise
       (fun a b => a < b)) := by
  have hinv0 : HeapInv Result.txNum (fun _ => (default : Result)) 0 := by
    intro j hj hj0
    omega
  obtain ⟨hinv, hms, hch⟩ := drainLoop_complete rs (fun _ => default) 0
    (by simpa using hlim) hinv0
  have hdrain : (rs.foldl ResultsQueue.add (newResultsQueue limit)).drainNonBlocking.popNextAll =
      drainAll Result.txNum (drainLoop limit rs (fun _ => default) 0).2.1
        (drainLoop limit rs (fun _ => default) 0).1 := by
    rw [foldl_add_resultCh]
    simp [ResultsQueue.drainNonBlocking, ResultsQueue.popNextAll, newResultsQueue]
  rw [hdrain]
  have hms0 : heapMS (fun _ => (default : Result)) 0 = 0 := rfl
  rw [hms0] at hms
  have hmseq : (drainAll Result.txNum (drainLoop limit rs (fun _ => default) 0).2.1
      (drainLoop limit rs (fun _ => default) 0).1 : Multiset Result) = (rs : Multiset Result) := by
    rw [drainAll_heapMS Result.txNum _ _ hinv, hms, zero_add]
  have hperm : (drainAll Result.txNum (drainLoop limit rs (fun _ => default) 0).2.1
      (drainLoop limit rs (fun _ => default) 0).1).Perm rs :=
    Multiset.coe_eq_coe.mp hmseq
  refine ⟨hperm, ?_⟩
  have hle := drainAll_sorted Result.txNum _ _ hinv
  have hnd' : ((drainAll Result.txNum (drainLoop limit rs (fun _ => default) 0).2.1
      (drainLoop limit rs (fun _ => default) 0).1).map Result.txNum).Nodup :=
    ((hperm.map Result.txNum).nodup_iff).mpr hnd
  rw [List.pairwise_map]
  have hnd2 : List.Pairwise (fun a b : Nat => a ≠ b)
      ((drainAll Result.txNum (drainLoop limit rs (fun _ => default) 0).2.1
        (drainLoop limit rs (fun _ => default) 0).1).map Result.txNum) := hnd'
  rw [List.pairwise_map] at hnd2
  exact (hle.and hnd2).imp fun h => lt_of_le_of_ne h.1 h.2

/-! ### QueueWithRetry (`accessors_indexes.go`)

The `newTasks` channel carries `Task` values that may be `nil` (the sentinel
sent by `ReTry`), hence a FIFO list of `Option Task`; the retry heap is a
`TxTaskQueue` backed by a function plus size.  A closed Go channel still
delivers its buffered values and then reports `ok = false`; `closed` is the
struct flag, `chClosed` records whether `close(newTasks)` has run (closing a
closed channel panics, hence the `Option` result of `close`). -/

structure QueueWithRetry where
  closed : Bool
  chClosed : Bool
  newTasks : List (Option Task)
  capacity : Nat
  retiresF : Nat → Task
  retiresN : Nat

def newQueueWithRetry (capacity : Nat) : QueueWithRetry :=
  { closed := false
    chClosed := false
    newTasks := []
    capacity := capacity
    retiresF := fun _ => default
    retiresN := 0 }

/-- The completed effect of the send case `q.newTasks <- t` of `Add`'s
`select`: an append to the channel buffer. -/
def QueueWithRetry.add (q : QueueWithRetry) (t : Task) : QueueWithRetry :=
  { q with newTasks := q.newTasks ++ [some t] }

/-- One resolution of the two-case `select` in `QueueWithRetry.Add`.  Go's
`select` chooses pseudo-randomly among the ready cases: `<-ctx.Done()` is
ready exactly when the context is cancelled, and the send `q.newTasks <- t`
is ready when the channel buffer has room — so a cancelled context with a
non-full buffer may still enqueue `t`.  With no ready case the `select`
blocks (no resolution until cancellation or room). -/
inductive AddR : Bool → QueueWithRetry → Task → QueueWithRetry → Prop where
  | cancel (q : QueueWithRetry) (t : Task) :
      AddR true q t q
  | send (c : Bool) (q : QueueWithRetry) (t : Task) :
      q.newTasks.length < q.capacity →
      AddR c q t (q.add t)

/-- `QueueWithRetry.ReTry`: push the failed task onto the retry heap, then —
unless the queue is closed — send a `nil` wake-up sentinel on the channel if
it has room (the `select`-with-`default` makes the send non-blocking). -/
def QueueWithRetry.reTry (q : QueueWithRetry) (t : Task) : QueueWithRetry :=
  let q1 := { q with retiresF := heapPush Task.txNum q.retiresF q.retiresN t
                     retiresN := q.retiresN + 1 }
  if q1.closed then q1
  else if q1.newTasks.length < q1.capacity then { q1 with newTasks := q1.newTasks ++ [none] }
  else q1

/-- The channel-receive loop at the end of `popNoWait`: it skips buffered
`nil` sentinels; an empty buffer gives `(nil, false)` whether the channel is
open (the `default` case) or closed (receive reports `ok = false`). -/
def popNoWaitLoop (q : QueueWithRetry) : List (Option Task) → Option Task × Bool × QueueWithRetry
  | [] => (none, false, { q with newTasks := [] })
  | none :: rest => popNoWaitLoop q rest
  | some t :: rest => (some t, true, { q with newTasks := rest })

/-- `QueueWithRetry.popNoWait`: conflicts awaiting re-execution have higher
priority than new tasks, so a non-empty retry heap is popped first; only
otherwise is the channel polled without blocking. -/
def QueueWithRetry.popNoWait (q : QueueWithRetry) : Option Task × Bool × QueueWithRetry :=
  if 0 < q.retiresN then
    (some (heapPop Task.txNum q.retiresF q.retiresN).1, true,
     { q with retiresF := (heapPop Task.txNum q.retiresF q.retiresN).2
              retiresN := q.retiresN - 1 })
  else popNoWaitLoop q q.newTasks

/-- One resolution of the blocking `select` loop of `popWait`.  The `select`
chooses nondeterministically among the ready cases — context cancellation,
or a channel receive (which reports `ok = false` once the channel is closed
and drained) — so the Go code is modelled as a relation between the state
and the produced outcome. -/
inductive PopWaitR : Bool → QueueWithRetry → Option Task × Bool × QueueWithRetry → Prop where
  | cancel (q : QueueWithRetry) :
      PopWaitR true q (none, false, q)
  | closedPop (c : Bool) (q : QueueWithRetry) :
      q.newTasks = [] → q.chClosed = true → 0 < q.retiresN →
      PopWaitR c q (some (heapPop Task.txNum q.retiresF q.retiresN).1, true,
        { q with retiresF := (heapPop Task.txNum q.retiresF q.retiresN).2
                 retiresN := q.retiresN - 1 })
  | closedNone (c : Bool) (q : QueueWithRetry) :
      q.newTasks = [] → q.chClosed = true → q.retiresN = 0 →
      PopWaitR c q (none, false, q)
  | recvTask (c : Bool) (q : QueueWithRetry) (t : Task) (rest : List (Option Task)) :
      q.newTasks = some t :: rest →
      PopWaitR c q
        (some (heapPop Task.txNum (heapPush Task.txNum q.retiresF q.retiresN t)
            (q.retiresN + 1)).1, true,
         { q with newTasks := rest
                  retiresF := (heapPop Task.txNum
                    (heapPush Task.txNum q.retiresF q.retiresN t) (q.retiresN + 1)).2
                  retiresN := q.retiresN })
  | recvNilPop (c : Bool) (q : QueueWithRetry) (rest : List (Option Task)) :
      q.newTasks = none :: rest → 0 < q.retiresN →
      PopWaitR c q (some (heapPop Task.txNum q.retiresF q.retiresN).1, true,
        { q with newTasks := rest
                 retiresF := (heapPop Task.txNum q.retiresF q.retiresN).2
                 retiresN := q.retiresN - 1 })
  | recvNilLoop (c : Bool) (q : QueueWithRetry) (rest : List (Option Task))
      (r : Option Task × Bool × QueueWithRetry) :
      q.newTasks = none :: rest → q.retiresN = 0 →
      PopWaitR c { q with newTasks := rest } r →
      PopWaitR c q r

/-- `QueueWithRetry.Next`: try `popNoWait`; when it reports not-ok, block in
`popWait`. -/
inductive NextR : Bool → QueueWithRetry → Option Task × Bool × QueueWithRetry → Prop where
  | noWait (c : Bool) (q : QueueWithRetry) :
      q.popNoWait.2.1 = true → NextR c q q.popNoWait
  | wait (c : Bool) (q : QueueWithRetry) (r : Option Task × Bool × QueueWithRetry) :
      q.popNoWait.2.1 = false → PopWaitR c q.popNoWait.2.2 r → NextR c q r

/-- `QueueWithRetry.Close`: guarded by the `closed` flag; `close` of an
already-closed channel would panic (`none`). -/
def QueueWithRetry.close (q : QueueWithRetry) : Option QueueWithRetry :=
  if q.closed then some q
  else if q.chClosed then none
  else some { q with closed := true, chClosed := true }

/-- `ResultsQueue.Close`: guarded by the `closed` flag; closes the result
channel and stops the ticker. -/
def ResultsQueue.close (q : ResultsQueue) : Option ResultsQueue :=
  if q.closed then some q
  else if q.chClosed then none
  else some { q with closed := true, chClosed := true, tickerStopped := true }

theorem reTry_retiresN (q : QueueWithRetry) (t : Task) :
    (q.reTry t).retiresN = q.retiresN + 1 := by
  rw [QueueWithRetry.reTry]
  dsimp only
  split
  · rfl
  · split <;> rfl

theorem reTry_retiresF (q : QueueWithRetry) (t : Task) :
    (q.reTry t).retiresF = heapPush Task.txNum q.retiresF q.retiresN t := by
  rw [QueueWithRetry.reTry]
  dsimp only
  split
  · rfl
  · split <;> rfl

theorem add_retires (q : QueueWithRetry) (t : Task) :
    ((q.add t).retiresF = q.retiresF ∧ (q.add t).retiresN = q.retiresN) :=
  ⟨rfl, rfl⟩

theorem popNoWait_of_retires (q : QueueWithRetry) (h : 0 < q.retiresN) :
    q.popNoWait = (some (heapPop Task.txNum q.retiresF q.retiresN).1, true,
      { q with retiresF := (heapPop Task.txNum q.retiresF q.retiresN).2
               retiresN := q.retiresN - 1 }) := by
  rw [QueueWithRetry.popNoWait, if_pos h]

/-- A heap holding exactly one freshly pushed task returns that task. -/
theorem heapPush_zero (f : Nat → Task) (t : Task) :
    heapPush Task.txNum f 0 t = setAt f 0 t := by
  rw [heapPush, up, if_pos (Or.inl rfl)]

/-- C2: whenever the retry heap is non-empty, `Next` pops the retry heap —
returning its root, which has the minimum TxNum among the retries — without
consuming anything from the fresh-task channel; in particular, starting from
an empty queue, after `ReTry t` and `Add u` in either order the first `Next`
returns `t` whatever the TxNums of `t` and `u` are. -/
theorem queueWithRetry_next_retry_first :
    (∀ (c : Bool) (q : QueueWithRetry) (r : Option Task × Bool × QueueWithRetry),
      0 < q.retiresN → HeapInv Task.txNum q.retiresF q.retiresN → NextR c q r →
      r.1 = some (heapPop Task.txNum q.retiresF q.retiresN).1 ∧ r.2.1 = true ∧
      r.2.2.newTasks = q.newTasks ∧ r.2.2.retiresN = q.retiresN - 1 ∧
      (∀ x ∈ heapList q.retiresF q.retiresN,
        (heapPop Task.txNum q.retiresF q.retiresN).1.txNum ≤ x.txNum)) ∧
    (∀ (c : Bool) (cap : Nat) (t u : Task)
      (r : Option Task × Bool × QueueWithRetry),
      (NextR c (((newQueueWithRetry cap).reTry t).add u) r → r.1 = some t) ∧
      (NextR c (((newQueueWithRetry cap).add u).reTry t) r → r.1 = some t)) := by
  have hgen : ∀ (c : Bool) (q : QueueWithRetry) (r : Option Task × Bool × QueueWithRetry),
      0 < q.retiresN → NextR c q r → r = q.popNoWait := by
    intro c q r h0 hnext
    have hok : q.popNoWait.2.1 = true := by
      rw [popNoWait_of_retires q h0]
    cases hnext with
    | noWait h => rfl
    | wait r' h hw => rw [hok] at h; exact absurd h (by simp)
  constructor
  · intro c q r h0 hinv hnext
    rw [hgen c q r h0 hnext, popNoWait_of_retires q h0]
    refine ⟨rfl, rfl, rfl, rfl, ?_⟩
    intro x hx
    obtain ⟨k, hk, rfl⟩ := List.mem_map.mp hx
    rw [heapPop_fst Task.txNum q.retiresF h0]
    exact heapInv_root_min Task.txNum hinv k (List.mem_range.mp hk)
  · intro c cap t u r
    have key1 : ∀ (q : QueueWithRetry), q.retiresN = 1 →
        q.retiresF = heapPush Task.txNum (fun _ => default) 0 t →
        NextR c q r → r.1 = some t := by
      intro q h1 hf hnext
      have h0 : 0 < q.retiresN := by omega
      rw [hgen c q r h0 hnext, popNoWait_of_retires q h0]
      show some ((heapPop Task.txNum q.retiresF q.retiresN).1) = some t
      rw [heapPop_fst Task.txNum q.retiresF h0, hf, heapPush_zero, setAt_same]
    constructor
    · intro hnext
      refine key1 _ ?_ ?_ hnext
      · rw [(add_retires _ u).2, reTry_retiresN]
        rfl
      · rw [(add_retires _ u).1, reTry_retiresF]
        rfl
    · intro hnext
      refine key1 _ ?_ ?_ hnext
      · rw [reTry_retiresN, (add_retires _ u).2]
        rfl
      · rw [reTry_retiresF, (add_retires _ u).1, (add_retires _ u).2]
        rfl

/-- C8: `Close` is idempotent on both queues — a successful close leaves a
state on which a second `Close` is an immediate no-op (same state, no
channel-double-close panic) — and after `QueueWithRetry.Close` every `Next`
still pops one remaining retry per call while the heap is non-empty. -/
theorem queues_close_idempotent_drain :
    (∀ (q q' : QueueWithRetry), q.close = some q' → q'.close = some q') ∧
    (∀ (q q' : ResultsQueue), q.close = some q' → q'.close = some q') ∧
    (∀ (c : Bool) (q : QueueWithRetry) (r : Option Task × Bool × QueueWithRetry),
      q.closed = true → 0 < q.retiresN → NextR c q r →
      r.1 = some (heapPop Task.txNum q.retiresF q.retiresN).1 ∧ r.2.1 = true ∧
      r.2.2.retiresN = q.retiresN - 1 ∧ r.2.2.closed = true) := by
  refine ⟨?_, ?_, ?_⟩
  · intro q q' h
    rw [QueueWithRetry.close] at h
    split at h
    · rename_i hc
      cases h
      rw [QueueWithRetry.close, if_pos hc]
    · split at h
      · cases h
      · cases h
        rw [QueueWithRetry.close]
        rfl
  · intro q q' h
    rw [ResultsQueue.close] at h
    split at h
    · rename_i hc
      cases h
      rw [ResultsQueue.close, if_pos hc]
    · split at h
      · cases h
      · cases h
        rw [ResultsQueue.close]
        rfl
  · intro c q r hclosed h0 hnext
    have hok : q.popNoWait.2.1 = true := by
      rw [popNoWait_of_retires q h0]
    have hr : r = q.popNoWait := by
      cases hnext with
      | noWait h => rfl
      | wait r' h hw => rw [hok] at h; exact absurd h (by simp)
    rw [hr, popNoWait_of_retires q h0]
    exact ⟨rfl, rfl, rfl, hclosed⟩

/-- C9 counterexample to the claim as stated: `Add`'s `select` is resolved
pseudo-randomly among its ready cases, so with the context already cancelled
but room in the fresh-task buffer the send case may win — from a fresh queue
of capacity 1, `AddR` admits a resolution that appends the task to the
buffer, refuting "Add returns without enqueuing t, the buffer unchanged". -/
theorem queueWithRetry_cancelled_counterexample :
    (AddR true (newQueueWithRetry 1) ⟨3, 0⟩ ((newQueueWithRetry 1).add ⟨3, 0⟩) ∧
     ((newQueueWithRetry 1).add ⟨3, 0⟩).newTasks = [some ⟨3, 0⟩] ∧
     (newQueueWithRetry 1).newTasks = []) :=
  ⟨AddR.send true _ _ (by decide), by decide, rfl⟩

/-- C9 (amended): with the context already cancelled, `Add` may resolve its
`select` to the cancellation case and return with the queue untouched; it is
guaranteed to do so when the fresh-task buffer is full; and every resolution
either leaves the queue unchanged or appends the task (with a non-full
buffer Go's pseudo-random `select` may pick either).  `Next` on a queue with
an empty retry heap and an empty fresh-task channel returns the not-ok
status `(nil, false)` under every resolution of the blocking select. -/
theorem queueWithRetry_cancelled :
    (∀ (q : QueueWithRetry) (t : Task), AddR true q t q) ∧
    (∀ (q q' : QueueWithRetry) (t : Task), AddR true q t q' →
      q.capacity ≤ q.newTasks.length → q' = q) ∧
    (∀ (q q' : QueueWithRetry) (t : Task), AddR true q t q' →
      q' = q ∨ q' = q.add t) ∧
    (∀ (q : QueueWithRetry) (r : Option Task × Bool × QueueWithRetry),
      q.retiresN = 0 → q.newTasks = [] → NextR true q r →
      r.1 = none ∧ r.2.1 = false) := by
  refine ⟨?_, ?_, ?_, ?_⟩
  · intro q t
    exact AddR.cancel q t
  · intro q q' t ha hfull
    cases ha with
    | cancel => rfl
    | send _ _ _ hroom => omega
  · intro q q' t ha
    cases ha with
    | cancel => exact Or.inl rfl
    | send _ _ _ hroom => exact Or.inr rfl
  · intro q r hn hch hnext
    have hpop : q.popNoWait = (none, false, { q with newTasks := [] }) := by
      rw [QueueWithRetry.popNoWait, if_neg (by omega), hch, popNoWaitLoop]
    cases hnext with
    | noWait h => rw [hpop] at h; exact absurd h (by simp)
    | wait r' h hw =>
      rw [hpop] at hw
      cases hw with
      | cancel => exact ⟨rfl, rfl⟩
      | closedPop _ _ he hcl hpos => rw [show ({ q with newTasks := [] } :
          QueueWithRetry).retiresN = q.retiresN from rfl, hn] at hpos; omega
      | closedNone => exact ⟨rfl, rfl⟩
      | recvTask _ _ t rest he => exact absurd he (by simp)
      | recvNilPop _ _ rest he hpos => exact absurd he (by simp)
      | recvNilLoop _ _ rest _ he _ _ => exact absurd he (by simp)

/-- Witness for C1: three results with TxNums 5, 1, 3 added out of order. -/
theorem resultsQueue_popNextAll_sorted_witness :
    (([⟨5, 0⟩, ⟨1, 1⟩, ⟨3, 2⟩] : List Result).foldl ResultsQueue.add
        (newResultsQueue 3)).drainNonBlocking.popNextAll.Perm [⟨5, 0⟩, ⟨1, 1⟩, ⟨3, 2⟩] ∧
    ((([⟨5, 0⟩, ⟨1, 1⟩, ⟨3, 2⟩] : List Result).foldl ResultsQueue.add
        (newResultsQueue 3)).drainNonBlocking.popNextAll.map Result.txNum).Pairwise
      (fun a b => a < b) :=
  resultsQueue_popNextAll_sorted [⟨5, 0⟩, ⟨1, 1⟩, ⟨3, 2⟩] 3 (by decide) (by decide)

/-- Witness for C2: `ReTry ⟨7,0⟩` then `Add ⟨1,1⟩` on a fresh queue; the
first `Next` (here resolved by `popNoWait`) returns the retried task. -/
theorem queueWithRetry_next_retry_first_witness :
    ((((newQueueWithRetry 2).reTry ⟨7, 0⟩).add ⟨1, 1⟩).popNoWait.1 =
      some (⟨7, 0⟩ : Task)) :=
  (queueWithRetry_next_retry_first.2 false 2 ⟨7, 0⟩ ⟨1, 1⟩
    (((newQueueWithRetry 2).reTry ⟨7, 0⟩).add ⟨1, 1⟩).popNoWait).1
    (NextR.noWait false _ (by decide))

/-- Witness for C8: closing a fresh queue, then closing again, is a no-op. -/
theorem queues_close_idempotent_drain_witness :
    ({ closed := true, chClosed := true, newTasks := [], capacity := 1,
       retiresF := fun _ => default, retiresN := 0 } : QueueWithRetry).close =
      some { closed := true, chClosed := true, newTasks := [], capacity := 1,
             retiresF := fun _ => default, retiresN := 0 } :=
  queues_close_idempotent_drain.1 (newQueueWithRetry 1) _ rfl

/-- Witness for C9: the cancellation resolution of a cancelled `Add` on a
fresh queue, and a cancelled `Next` on an empty fresh queue being not-ok. -/
theorem queueWithRetry_cancelled_witness :
    (AddR true (newQueueWithRetry 1) ⟨3, 0⟩ (newQueueWithRetry 1) ∧
     (((none : Option Task), false, (newQueueWithRetry 1).popNoWait.2.2)).1 = none ∧
     (((none : Option Task), false, (newQueueWithRetry 1).popNoWait.2.2)).2.1 = false) :=
  ⟨queueWithRetry_cancelled.1 (newQueueWithRetry 1) ⟨3, 0⟩,
   queueWithRetry_cancelled.2.2.2 (newQueueWithRetry 1) _ rfl rfl
     (NextR.wait true _ _ (by rfl) (PopWaitR.cancel _))⟩

/-! ### execStatusManager (`eth/stagedsync/exec3_status.go`)

Task indexes are Go `int`, modelled as `Int` (the sentinel -1 and the
`blocker < 0` guard are significant).  The Go maps `map[int]map[int]bool`
are modelled as total functions from `Int` to canonical ascending duplicate-free
`List Int` sets (`setInsert`/`setErase`); a missing key and an allocated empty
inner map have the same observable behaviour in this code (the `nil`-map
allocation branches only differ in allocation), so both are the empty set.
The `for k := range deps` loop of `removeDependency` visits keys in an
unspecified order; its per-key effects touch disjoint state, so the model
iterates the canonical list in ascending order.  `none` models a Go runtime
panic. -/

/-- Canonical-set insert for the model of `map[int]bool`. -/
def setInsert (v : Int) : List Int → List Int
  | [] => [v]
  | x :: xs => if v < x then v :: x :: xs else if v = x then x :: xs else x :: setInsert v xs

/-- Canonical-set delete for the model of `map[int]bool`: like Go `delete`,
the key is gone afterwards (every occurrence is dropped). -/
def setErase (v : Int) : List Int → List Int
  | [] => []
  | x :: xs => if v = x then setErase v xs else x :: setErase v xs

/-- Models the documented result of `sort.SearchInts` on a sorted slice: the
smallest index `i` with `v ≤ l[i]`, or `len(l)` if there is none.  It never
returns -1 (the `x == -1` test in `removeFromList` is dead code). -/
def searchInts (l : List Int) (v : Int) : Nat :=
  (l.takeWhile (fun x => decide (x < v))).length

def insertInList (l : List Int) (v : Int) : List Int :=
  if l.length = 0 ∨ l.getLastD 0 < v then l ++ [v]
  else
    let x := searchInts l v
    if x < l.length ∧ l.getD x 0 = v then l
    else (l.take (x + 1) ++ l.drop x).set x v

/-- `removeFromList`: the Go code computes `x := sort.SearchInts(l, v)` and
then evaluates `l[x]`; when `v` exceeds every element (in particular when
`l` is empty) `x = len(l)` and that read panics with an index out of range —
modelled by `none`.  The explicit `panic` for a missing expected element is
also `none`. -/
def removeFromList (l : List Int) (v : Int) (expect : Bool) : Option (List Int) :=
  let x := searchInts l v
  if x < l.length then
    if l.getD x 0 ≠ v then
      if expect then none else some l
    else if x = 0 then some (l.drop 1)
    else if x = l.length - 1 then some (l.take (l.length - 1))
    else some (l.take x ++ l.drop (x + 1))
  else none

/-- `hasNoGap`: `l[0]+len(l) == l[len(l)-1]+1`; callers only apply it to
non-empty lists, so the `headD`/`getLastD` defaults are never read. -/
def hasNoGap (l : List Int) : Bool :=
  decide (l.headD 0 + (l.length : Int) = l.getLastD 0 + 1)

/-- The descending loop of `maxAllComplete`: starting at index `i` and
counting down, return `complete[i]` at the first `i` whose prefix
`complete[:i+1]` has no gap; `-1` if no index works. -/
def maxAllCompleteLoop (complete : List Int) : Nat → Int
  | 0 => if hasNoGap (complete.take 1) then complete.getD 0 0 else -1
  | i + 1 =>
    if hasNoGap (complete.take (i + 2)) then complete.getD (i + 1) 0
    else maxAllCompleteLoop complete i

structure execStatusManager where
  pending : List Int
  inProgress : List Int
  complete : List Int
  dependency : Int → List Int
  blocker : Int → List Int

def newStatusManager (numTasks : Nat) : execStatusManager :=
  { pending := (List.range numTasks).map Int.ofNat
    inProgress := []
    complete := []
    dependency := fun _ => []
    blocker := fun _ => [] }

def execStatusManager.takeNextPending (m : execStatusManager) : Int × execStatusManager :=
  match m.pending with
  | [] => (-1, m)
  | x :: rest => (x, { m with pending := rest, inProgress := insertInList m.inProgress x })

def execStatusManager.maxAllComplete (m : execStatusManager) : Int :=
  if m.complete.length = 0 ∨ m.complete.headD 0 ≠ 0 then -1
  else if m.complete.getLastD 0 = (m.complete.length : Int) - 1 then m.complete.getLastD 0
  else maxAllCompleteLoop m.complete (m.complete.length - 2)

def execStatusManager.pushPending (m : execStatusManager) (tx : Int) : execStatusManager :=
  { m with pending := insertInList m.pending tx }

def execStatusManager.markComplete (m : execStatusManager) (tx : Int) :
    Option execStatusManager :=
  (removeFromList m.inProgress tx true).map fun l =>
    { m with inProgress := l, complete := insertInList m.complete tx }

def execStatusManager.minPending (m : execStatusManager) : Int :=
  match m.pending with
  | [] => -1
  | x :: _ => x

def execStatusManager.countComplete (m : execStatusManager) : Nat :=
  m.complete.length

def execStatusManager.checkInProgress (m : execStatusManager) (tx : Int) : Bool :=
  if searchInts m.inProgress tx < m.inProgress.length ∧
     m.inProgress.getD (searchInts m.inProgress tx) 0 = tx then true else false

def execStatusManager.checkPending (m : execStatusManager) (tx : Int) : Bool :=
  if searchInts m.pending tx < m.pending.length ∧
     m.pending.getD (searchInts m.pending tx) 0 = tx then true else false

def execStatusManager.checkComplete (m : execStatusManager) (tx : Int) : Bool :=
  if searchInts m.complete tx < m.complete.length ∧
     m.complete.getD (searchInts m.complete tx) 0 = tx then true else false

def execStatusManager.addDependencies (m : execStatusManager) (blocker dependent : Int) :
    Bool × execStatusManager :=
  if blocker < 0 ∨ dependent ≤ blocker then (false, m)
  else if m.checkComplete blocker then
    (decide (0 < (setErase blocker (m.blocker dependent)).length),
     { m with blocker := (Function.update m.blocker dependent
         (setErase blocker (m.blocker dependent))) })
  else
    (true,
     { m with
        dependency := (Function.update m.dependency blocker
          (setInsert dependent (m.dependency blocker)))
        blocker := (Function.update m.blocker dependent
          (setInsert blocker (m.blocker dependent))) })

def execStatusManager.isBlocked (m : execStatusManager) (tx : Int) : Bool :=
  decide (0 < (m.blocker tx).length)

/-- The body of the `for k := range deps` loop of `removeDependency`. -/
def removeDepStep (tx : Int) (m : execStatusManager) (k : Int) : execStatusManager :=
  let m1 := { m with blocker := Function.update m.blocker k (setErase tx (m.blocker k)) }
  if (m1.blocker k).length = 0 then
    if m1.checkComplete k = false ∧ m1.checkPending k = false ∧
       m1.checkInProgress k = false
    then m1.pushPending k else m1
  else m1

def execStatusManager.removeDependency (m : execStatusManager) (tx : Int) :
    execStatusManager :=
  if 0 < (m.dependency tx).length then
    { (m.dependency tx).foldl (removeDepStep tx) m with
        dependency := (Function.update
          ((m.dependency tx).foldl (removeDepStep tx) m).dependency tx []) }
  else m

def execStatusManager.clearInProgress (m : execStatusManager) (tx : Int) :
    Option execStatusManager :=
  (removeFromList m.inProgress tx true).map fun l => { m with inProgress := l }

def execStatusManager.getRevalidationRange (m : execStatusManager) (txFrom : Int) :
    List Int :=
  ((List.range (m.maxAllComplete + 1 - txFrom).toNat).map
    (fun i : Nat => txFrom + (i : Int))).filter (fun x => ! m.checkInProgress x)

def execStatusManager.clearComplete (m : execStatusManager) (tx : Int) :
    Option execStatusManager :=
  (removeFromList m.complete tx false).map fun l => { m with complete := l }

def execStatusManager.clearPending (m : execStatusManager) (tx : Int) :
    Option execStatusManager :=
  (removeFromList m.pending tx false).map fun l => { m with pending := l }

def execStatusManager.pushPendingSet (m : execStatusManager) (set : List Int) :
    Option execStatusManager :=
  set.foldlM (fun acc v =>
    if acc.checkComplete v then (acc.clearComplete v).map fun a => a.pushPending v
    else some (acc.pushPending v)) m

theorem headD_eq_getD (l : List Int) : l.headD 0 = l.getD 0 0 := by
  cases l <;> rfl

theorem getLastD_eq_getD (l : List Int) (h : l ≠ []) :
    l.getLastD 0 = l.getD (l.length - 1) 0 := by
  have hlen : 0 < l.length := List.length_pos.mpr h
  rw [List.getLastD_eq_getLast?, List.getLast?_eq_getElem?,
    List.getD_eq_getElem l 0 (by omega), List.getElem?_eq_getElem (by omega)]
  rfl

theorem sorted_getD_lt {l : List Int} (hs : l.Pairwise (fun a b => a < b))
    {i j : Nat} (hij : i < j) (hj : j < l.length) :
    l.getD i 0 < l.getD j 0 := by
  rw [List.getD_eq_getElem l 0 (by omega), List.getD_eq_getElem l 0 hj]
  exact List.pairwise_iff_getElem.mp hs i j (by omega) hj hij

theorem sorted_getD_add_le {l : List Int} (hs : l.Pairwise (fun a b => a < b)) :
    ∀ (d i j : Nat), j = i + d → j < l.length →
    l.getD i 0 + (d : Int) ≤ l.getD j 0 := by
  intro d
  induction d with
  | zero =>
    intro i j hj hjl
    subst hj
    simp
  | succ d ih =>
    intro i j hj hjl
    have h1 := ih i (i + d) rfl (by omega)
    have h2 : l.getD (i + d) 0 < l.getD j 0 := sorted_getD_lt hs (by omega) hjl
    push_cast
    push_cast at h1
    omega

theorem mem_iff_getD {l : List Int} {x : Int} :
    x ∈ l ↔ ∃ i, i < l.length ∧ l.getD i 0 = x := by
  rw [List.mem_iff_getElem]
  constructor
  · rintro ⟨i, hi, rfl⟩
    exact ⟨i, hi, List.getD_eq_getElem l 0 hi⟩
  · rintro ⟨i, hi, hx⟩
    exact ⟨i, hi, by rw [← List.getD_eq_getElem l 0 hi, hx]⟩

theorem getD_zero_of_mem {l : List Int} (hs : l.Pairwise (fun a b => a < b))
    (hnn : ∀ x ∈ l, 0 ≤ x) (h0 : (0 : Int) ∈ l) : l.getD 0 0 = 0 := by
  obtain ⟨i, hi, hgi⟩ := mem_iff_getD.mp h0
  rcases Nat.eq_zero_or_pos i with rfl | hipos
  · exact hgi
  · have hlt : l.getD 0 0 < l.getD i 0 := sorted_getD_lt hs hipos hi
    have hmem : l.getD 0 0 ∈ l := mem_iff_getD.mpr ⟨0, by omega, rfl⟩
    have := hnn _ hmem
    omega

theorem getD_take_eq (l : List Int) {i m : Nat} (him : i < m) (hil : i < l.length) :
    (l.take m).getD i 0 = l.getD i 0 := by
  rw [List.getD_eq_getElem _ 0 (by rw [List.length_take]; omega),
    List.getD_eq_getElem l 0 hil]
  exact List.getElem_take l

theorem hasNoGap_take {l : List Int} (h0 : l.getD 0 0 = 0) {i : Nat}
    (hi : i < l.length) :
    (hasNoGap (l.take (i + 1)) = true ↔ l.getD i 0 = (i : Int)) := by
  have hlen : (l.take (i + 1)).length = i + 1 := by
    rw [List.length_take]
    omega
  have hne : l.take (i + 1) ≠ [] := by
    intro h
    rw [h] at hlen
    simp at hlen
  have hhead : (l.take (i + 1)).headD 0 = 0 := by
    rw [headD_eq_getD, getD_take_eq l (by omega) (by omega), h0]
  have hlast : (l.take (i + 1)).getLastD 0 = l.getD i 0 := by
    rw [getLastD_eq_getD _ hne, hlen]
    exact getD_take_eq l (by omega) hi
  rw [hasNoGap, hhead, hlast, hlen, decide_eq_true_iff]
  constructor
  · intro h
    push_cast at h ⊢
    omega
  · intro h
    push_cast at h ⊢
    omega

theorem maxAllCompleteLoop_spec {l : List Int} (h0 : l.getD 0 0 = 0) :
    ∀ i, i < l.length →
      ∃ k : Nat, k ≤ i ∧ maxAllCompleteLoop l i = (k : Int) ∧
        l.getD k 0 = (k : Int) ∧
        (∀ j : Nat, k < j → j ≤ i → l.getD j 0 ≠ (j : Int)) := by
  intro i
  induction i with
  | zero =>
    intro hi
    refine ⟨0, le_refl 0, ?_, by simpa using h0, by omega⟩
    rw [maxAllCompleteLoop, if_pos ((hasNoGap_take h0 hi).mpr (by simpa using h0))]
    simpa using h0
  | succ i ih =>
    intro hi
    by_cases hc : l.getD (i + 1) 0 = ((i + 1 : Nat) : Int)
    · refine ⟨i + 1, le_refl _, ?_, hc, by omega⟩
      rw [maxAllCompleteLoop, if_pos ((hasNoGap_take h0 hi).mpr hc)]
      exact hc
    · obtain ⟨k, hk1, hk2, hk3, hk4⟩ := ih (by omega)
      refine ⟨k, by omega, ?_, hk3, ?_⟩
      · rw [maxAllCompleteLoop, if_neg (fun hgap => hc ((hasNoGap_take h0 hi).mp hgap))]
        exact hk2
      · intro j hj1 hj2
        rcases Nat.lt_or_ge j (i + 1) with h | h
        · exact hk4 j hj1 (by omega)
        · have hji : j = i + 1 := by omega
          rw [hji]
          exact hc

theorem sorted_prefix_mem {l : List Int} (hs : l.Pairwise (fun a b => a < b))
    (h0 : l.getD 0 0 = 0) {k : Nat} (hkl : k < l.length)
    (hk : l.getD k 0 = (k : Int)) :
    ∀ j : Int, 0 ≤ j → j ≤ (k : Int) → j ∈ l := by
  intro j hj0 hjk
  have haj : (j.toNat : Int) = j := Int.toNat_of_nonneg hj0
  have hak : j.toNat ≤ k := by omega
  have h1 : (j.toNat : Int) ≤ l.getD j.toNat 0 := by
    have := sorted_getD_add_le hs j.toNat 0 j.toNat (by omega) (by omega)
    rw [h0] at this
    simpa using this
  have h2 : l.getD j.toNat 0 + ((k - j.toNat : Nat) : Int) ≤ l.getD k 0 :=
    sorted_getD_add_le hs (k - j.toNat) j.toNat k (by omega) hkl
  have h3 : l.getD j.toNat 0 = j := by
    rw [hk] at h2
    push_cast at h2
    omega
  exact mem_iff_getD.mpr ⟨j.toNat, by omega, h3⟩

theorem sorted_succ_not_mem {l : List Int} (hs : l.Pairwise (fun a b => a < b))
    (h0 : l.getD 0 0 = 0) {k : Nat} (hkl : k < l.length)
    (hk : l.getD k 0 = (k : Int))
    (hnext : ∀ p, k < p → p < l.length → l.getD p 0 ≠ (p : Int)) :
    ((k : Int) + 1) ∉ l := by
  intro hmem
  obtain ⟨p, hp, hpv⟩ := mem_iff_getD.mp hmem
  rcases Nat.lt_or_ge k p with hkp | hkp
  · have hge : (p : Int) ≤ l.getD p 0 := by
      have := sorted_getD_add_le hs p 0 p (by omega) hp
      rw [h0] at this
      simpa using this
    have hpk1 : p = k + 1 := by omega
    apply hnext p hkp hp
    rw [hpv, hpk1]
    push_cast
    ring
  · have hsq : l.getD p 0 + ((k - p : Nat) : Int) ≤ l.getD k 0 :=
      sorted_getD_add_le hs (k - p) p k (by omega) hkl
    rw [hk, hpv] at hsq
    push_cast at hsq
    omega

/-- The behaviour of `maxAllComplete` on a sorted duplicate-free non-negative
completed list: -1 when index 0 is missing, else the end of the contiguous
prefix starting at 0. -/
theorem maxAllComplete_spec (m : execStatusManager)
    (hs : m.complete.Pairwise (fun a b => a < b))
    (hnn : ∀ x ∈ m.complete, 0 ≤ x) :
    (((0 : Int) ∉ m.complete → m.maxAllComplete = -1) ∧
     ((0 : Int) ∈ m.complete →
       0 ≤ m.maxAllComplete ∧
       (∀ j : Int, 0 ≤ j → j ≤ m.maxAllComplete → j ∈ m.complete) ∧
       m.maxAllComplete + 1 ∉ m.complete)) := by
  constructor
  · intro h0
    have hcond : m.complete.length = 0 ∨ m.complete.headD 0 ≠ 0 := by
      rcases eq_or_ne m.complete [] with he | he
      · left
        rw [he]
        rfl
      · right
        rw [headD_eq_getD]
        intro hh
        exact h0 (mem_iff_getD.mpr ⟨0, List.length_pos.mpr he, hh⟩)
    rw [execStatusManager.maxAllComplete, if_pos hcond]
  · intro h0mem
    have hne : m.complete ≠ [] := List.ne_nil_of_mem h0mem
    have hlen : 0 < m.complete.length := List.length_pos.mpr hne
    have h0 : m.complete.getD 0 0 = 0 := getD_zero_of_mem hs hnn h0mem
    have hcond : ¬ (m.complete.length = 0 ∨ m.complete.headD 0 ≠ 0) := by
      push_neg
      refine ⟨by omega, ?_⟩
      rw [headD_eq_getD]
      exact h0
    rw [execStatusManager.maxAllComplete, if_neg hcond]
    by_cases hb2 : m.complete.getLastD 0 = (m.complete.length : Int) - 1
    · rw [if_pos hb2, hb2]
      have hcast : (1 : Int) ≤ (m.complete.length : Int) := by exact_mod_cast hlen
      have hklen : m.complete.length - 1 < m.complete.length := by omega
      have hk : m.complete.getD (m.complete.length - 1) 0 =
          ((m.complete.length - 1 : Nat) : Int) := by
        rw [← getLastD_eq_getD _ hne, hb2]
        push_cast
        omega
      refine ⟨by omega, ?_, ?_⟩
      · intro j hj0 hjr
        refine sorted_prefix_mem hs h0 hklen hk j hj0 ?_
        push_cast
        omega
      · have hni := sorted_succ_not_mem hs h0 hklen hk
          (fun p hp1 hp2 => absurd hp2 (by omega))
        intro hmem
        apply hni
        have hcast2 : ((m.complete.length - 1 : Nat) : Int) + 1 =
            (m.complete.length : Int) - 1 + 1 := by
          push_cast
          omega
        rw [hcast2]
        exact hmem
    · rw [if_neg hb2]
      have hlen2 : 2 ≤ m.complete.length := by
        by_contra h
        have h1 : m.complete.length = 1 := by omega
        apply hb2
        rw [getLastD_eq_getD _ hne, h1]
        simpa using h0
      obtain ⟨k, hki, hkeq, hkval, hkmax⟩ :=
        maxAllCompleteLoop_spec h0 (m.complete.length - 2) (by omega)
      rw [hkeq]
      have hklen : k < m.complete.length := by omega
      have hlast_ne : m.complete.getD (m.complete.length - 1) 0 ≠
          ((m.complete.length - 1 : Nat) : Int) := by
        intro h
        apply hb2
        rw [getLastD_eq_getD _ hne, h]
        push_cast
        omega
      refine ⟨by omega, ?_, ?_⟩
      · intro j hj0 hjk
        exact sorted_prefix_mem hs h0 hklen hkval j hj0 hjk
      · apply sorted_succ_not_mem hs h0 hklen hkval
        intro p hp1 hp2
        rcases Nat.lt_or_ge p (m.complete.length - 1) with hp | hp
        · exact hkmax p hp1 (by omega)
        · have hpe : p = m.complete.length - 1 := by omega
          rw [hpe]
          exact hlast_ne

/-- A status-manager state with the given pending / in-progress / completed
lists and empty dependency maps (a fixture for concrete instances). -/
def mkStatus (p ip c : List Int) : execStatusManager :=
  { pending := p
    inProgress := ip
    complete := c
    dependency := fun _ => []
    blocker := fun _ => [] }

/-- C3 counterexample: completed = [-1, 0] is sorted and duplicate-free and
index 0 is completed, yet `maxAllComplete` returns -1 (it compares
`complete[0]` with 0, so a negative entry hides the completed prefix),
contradicting the claim for every sorted duplicate-free state. -/
theorem maxAllComplete_counterexample :
    ((mkStatus [] [] [-1, 0]).complete.Pairwise (fun a b => a < b)) ∧
    ((0 : Int) ∈ (mkStatus [] [] [-1, 0]).complete) ∧
    (mkStatus [] [] [-1, 0]).maxAllComplete = -1 := by
  decide

/-- C3 (amended: the completed entries must also be non-negative, as they are
for real TxIndex values): `maxAllComplete` returns the largest `k` with
`[0..k]` all completed and no gap, -1 when 0 is not completed; and the three
worked examples from the spec. -/
theorem maxAllComplete_correct :
    (∀ m : execStatusManager, m.complete.Pairwise (fun a b => a < b) →
      (∀ x ∈ m.complete, 0 ≤ x) →
      (((0 : Int) ∉ m.complete → m.maxAllComplete = -1) ∧
       ((0 : Int) ∈ m.complete →
         0 ≤ m.maxAllComplete ∧
         (∀ j : Int, 0 ≤ j → j ≤ m.maxAllComplete → j ∈ m.complete) ∧
         m.maxAllComplete + 1 ∉ m.complete))) ∧
    (mkStatus [] [] [0, 1, 2, 5, 6]).maxAllComplete = 2 ∧
    (mkStatus [] [] [0, 1, 2, 3]).maxAllComplete = 3 ∧
    (mkStatus [] [] [1, 2]).maxAllComplete = -1 :=
  ⟨fun m hs hnn => maxAllComplete_spec m hs hnn, by decide, by decide, by decide⟩

/-- Witness for C3 at completed = [0, 1, 5]. -/
theorem maxAllComplete_correct_witness :
    ((0 : Int) ∉ (mkStatus [] [] [0, 1, 5]).complete →
      (mkStatus [] [] [0, 1, 5]).maxAllComplete = -1) ∧
    ((0 : Int) ∈ (mkStatus [] [] [0, 1, 5]).complete →
      0 ≤ (mkStatus [] [] [0, 1, 5]).maxAllComplete ∧
      (∀ j : Int, 0 ≤ j → j ≤ (mkStatus [] [] [0, 1, 5]).maxAllComplete →
        j ∈ (mkStatus [] [] [0, 1, 5]).complete) ∧
      (mkStatus [] [] [0, 1, 5]).maxAllComplete + 1 ∉
        (mkStatus [] [] [0, 1, 5]).complete) :=
  maxAllComplete_correct.1 (mkStatus [] [] [0, 1, 5]) (by decide) (by decide)

/-- C10 (code bug): `removeFromList(l, v, false)` for a `v` that is absent
and not below the last element — in particular on an empty list — reads
`l[x]` at `x = len(l)` and panics with an index out of range instead of
returning `l` unchanged; `clearComplete` and `clearPending` for such an
absent `tx` inherit the panic.  (When the absent `v` sits below some
element, the non-panicking branch is reached and `l` is returned.) -/
theorem removeFromList_absent_panics :
    removeFromList [] 0 false = none ∧
    removeFromList [1, 2] 3 false = none ∧
    (mkStatus [] [] [1, 2]).clearComplete 3 = none ∧
    (mkStatus [1, 2] [] []).clearPending 3 = none ∧
    removeFromList [1, 2] 0 false = some [1, 2] :=
  ⟨by decide, by decide, rfl, rfl, by decide⟩

theorem mem_setInsert {v a : Int} : ∀ {s : List Int},
    (a ∈ setInsert v s ↔ a = v ∨ a ∈ s) := by
  intro s
  induction s with
  | nil => simp [setInsert]
  | cons x xs ih =>
    rw [setInsert]
    split
    · simp [List.mem_cons]
    · split
      · rename_i h1 h2
        subst h2
        simp [List.mem_cons]
      · simp only [List.mem_cons, ih]
        tauto

theorem mem_setErase {v a : Int} : ∀ {s : List Int},
    (a ∈ setErase v s ↔ a ∈ s ∧ a ≠ v) := by
  intro s
  induction s with
  | nil => simp [setErase]
  | cons x xs ih =>
    rw [setErase]
    split
    · rename_i h
      subst h
      rw [ih]
      simp only [List.mem_cons]
      tauto
    · rename_i h
      simp only [List.mem_cons, ih]
      constructor
      · rintro (rfl | hin)
        · exact ⟨Or.inl rfl, fun hv => h hv.symm⟩
        · exact ⟨Or.inr hin.1, hin.2⟩
      · rintro ⟨rfl | hin, hne⟩
        · exact Or.inl rfl
        · exact Or.inr ⟨hin, hne⟩

theorem setInsert_length_pos (v : Int) (s : List Int) :
    0 < (setInsert v s).length :=
  List.length_pos.mpr (List.ne_nil_of_mem (mem_setInsert.mpr (Or.inl rfl)))

/-- C4 counterexample: blocker = -1 < dependent = 5 and -1 is not completed,
so the claim's remaining case says the edge is recorded; but the code also
guards `blocker < 0` and is a no-op there: nothing is recorded and task 5
stays unblocked. -/
theorem addDependencies_counterexample :
    ¬ ((-1 : Int) ≥ 5) ∧
    (mkStatus [] [] []).checkComplete (-1) = false ∧
    (5 : Int) ∉ ((mkStatus [] [] []).addDependencies (-1) 5).2.dependency (-1) ∧
    (-1 : Int) ∉ ((mkStatus [] [] []).addDependencies (-1) 5).2.blocker 5 ∧
    ((mkStatus [] [] []).addDependencies (-1) 5).2.isBlocked 5 = false := by
  decide

/-- C4 (amended: the no-op case also covers a negative blocker, matching the
`blocker < 0` guard): `addDependencies` is a no-op when `blocker >= dependent`
or `blocker < 0`; with a completed blocker the dependency map is untouched
and the edge is resolved immediately; otherwise the edge is recorded in both
directions and the dependent is blocked. -/
theorem addDependencies_correct :
    (∀ (m : execStatusManager) (b d : Int), b < 0 ∨ d ≤ b →
      (m.addDependencies b d).2 = m) ∧
    (∀ (m : execStatusManager) (b d : Int), 0 ≤ b → b < d →
      m.checkComplete b = true →
      ((m.addDependencies b d).2.dependency = m.dependency ∧
       b ∉ (m.addDependencies b d).2.blocker d)) ∧
    (∀ (m : execStatusManager) (b d : Int), 0 ≤ b → b < d →
      m.checkComplete b = false →
      (d ∈ (m.addDependencies b d).2.dependency b ∧
       b ∈ (m.addDependencies b d).2.blocker d ∧
       (m.addDependencies b d).2.isBlocked d = true)) := by
  refine ⟨?_, ?_, ?_⟩
  · intro m b d h
    rw [execStatusManager.addDependencies, if_pos h]
  · intro m b d hb hd hc
    rw [execStatusManager.addDependencies, if_neg (by omega), if_pos hc]
    refine ⟨rfl, ?_⟩
    show b ∉ Function.update m.blocker d (setErase b (m.blocker d)) d
    rw [Function.update_same]
    intro hmem
    exact (mem_setErase.mp hmem).2 rfl
  · intro m b d hb hd hc
    rw [execStatusManager.addDependencies, if_neg (by omega), if_neg (by rw [hc]; simp)]
    refine ⟨?_, ?_, ?_⟩
    · show d ∈ Function.update m.dependency b (setInsert d (m.dependency b)) b
      rw [Function.update_same]
      exact mem_setInsert.mpr (Or.inl rfl)
    · show b ∈ Function.update m.blocker d (setInsert b (m.blocker d)) d
      rw [Function.update_same]
      exact mem_setInsert.mpr (Or.inl rfl)
    · show decide (0 < (Function.update m.blocker d (setInsert b (m.blocker d)) d).length) = true
      rw [Function.update_same]
      exact decide_eq_true (setInsert_length_pos b (m.blocker d))

/-- Witness for C4: recording the edge 2 → 5 in the empty state. -/
theorem addDependencies_correct_witness :
    (5 : Int) ∈ ((mkStatus [] [] []).addDependencies 2 5).2.dependency 2 ∧
    (2 : Int) ∈ ((mkStatus [] [] []).addDependencies 2 5).2.blocker 5 ∧
    ((mkStatus [] [] []).addDependencies 2 5).2.isBlocked 5 = true :=
  addDependencies_correct.2.2 (mkStatus [] [] []) 2 5 (by decide) (by decide) (by decide)

theorem searchInts_mem_of_check {l : List Int} {tx : Int}
    (h1 : searchInts l tx < l.length) (h2 : l.getD (searchInts l tx) 0 = tx) :
    tx ∈ l :=
  mem_iff_getD.mpr ⟨_, h1, h2⟩

theorem getD_concat_head (l1 l2 : List Int) (h : l2 ≠ []) :
    (l1 ++ l2).getD l1.length 0 = l2.head h := by
  induction l1 with
  | nil =>
    cases l2 with
    | nil => exact absurd rfl h
    | cons x xs => rfl
  | cons x xs ih => simpa using ih

theorem searchInts_check_of_mem {l : List Int}
    (hs : l.Pairwise (fun a b => a ≤ b)) {tx : Int} (htx : tx ∈ l) :
    searchInts l tx < l.length ∧ l.getD (searchInts l tx) 0 = tx := by
  have hsplit : l.takeWhile (fun x => decide (x < tx)) ++
      l.dropWhile (fun x => decide (x < tx)) = l :=
    List.takeWhile_append_dropWhile _ l
  have htw : tx ∉ l.takeWhile (fun x => decide (x < tx)) := by
    intro h
    have := List.mem_takeWhile_imp h
    simp at this
  have hdw : tx ∈ l.dropWhile (fun x => decide (x < tx)) := by
    conv at htx => rw [← hsplit]
    rcases List.mem_append.mp htx with h | h
    · exact absurd h htw
    · exact h
  have hne : l.dropWhile (fun x => decide (x < tx)) ≠ [] := List.ne_nil_of_mem hdw
  have hhead1 : ¬ ((l.dropWhile (fun x => decide (x < tx))).head hne < tx) := by
    have := List.head_dropWhile_not (fun x => decide (x < tx)) l hne
    simpa using this
  have hdwsorted : (l.dropWhile (fun x => decide (x < tx))).Pairwise
      (fun a b => a ≤ b) := hs.sublist (List.dropWhile_sublist _)
  have hhead2 : (l.dropWhile (fun x => decide (x < tx))).head hne ≤ tx := by
    have hcons := (List.head_cons_tail _ hne).symm
    rw [hcons] at hdwsorted hdw
    rcases List.mem_cons.mp hdw with h | h
    · omega
    · exact (List.pairwise_cons.mp hdwsorted).1 tx h
  have hhead : (l.dropWhile (fun x => decide (x < tx))).head hne = tx := by
    omega
  have hlenpos := List.length_pos.mpr hne
  have hlensum : searchInts l tx +
      (l.dropWhile (fun x => decide (x < tx))).length = l.length := by
    rw [searchInts, ← List.length_append, hsplit]
  constructor
  · omega
  · have hstep : l.getD (searchInts l tx) 0 =
        (l.takeWhile (fun x => decide (x < tx)) ++
          l.dropWhile (fun x => decide (x < tx))).getD
          (l.takeWhile (fun x => decide (x < tx))).length 0 := by
      rw [hsplit]
      rfl
    rw [hstep, getD_concat_head _ _ hne, hhead]

/-- The common body of `checkPending` / `checkInProgress` / `checkComplete`:
on a sorted list it is exactly the membership test. -/
theorem checkList_iff_mem {l : List Int} (hs : l.Pairwise (fun a b => a ≤ b))
    (tx : Int) :
    ((if searchInts l tx < l.length ∧ l.getD (searchInts l tx) 0 = tx
        then true else false) = true) ↔ tx ∈ l := by
  split
  · rename_i h
    exact iff_of_true rfl (searchInts_mem_of_check h.1 h.2)
  · rename_i h
    constructor
    · intro hfalse
      cases hfalse
    · intro hmem
      exact absurd (searchInts_check_of_mem hs hmem) h

theorem checkList_false_of_not_mem {l : List Int} {tx : Int} (h : tx ∉ l) :
    ((if searchInts l tx < l.length ∧ l.getD (searchInts l tx) 0 = tx
        then true else false) = false) := by
  split
  · rename_i hc
    exact absurd (searchInts_mem_of_check hc.1 hc.2) h
  · rfl

/-- C6: with sorted lists, `getRevalidationRange(txFrom)` contains exactly
the indices of `[txFrom, maxAllComplete()]` that are not in-progress, in
ascending order. -/
theorem getRevalidationRange_correct (m : execStatusManager) (txFrom : Int)
    (hp : m.pending.Pairwise (fun a b => a ≤ b))
    (hip : m.inProgress.Pairwise (fun a b => a ≤ b))
    (hc : m.complete.Pairwise (fun a b => a ≤ b)) :
    ((∀ x : Int, x ∈ m.getRevalidationRange txFrom ↔
        (txFrom ≤ x ∧ x ≤ m.maxAllComplete ∧ x ∉ m.inProgress)) ∧
     (m.getRevalidationRange txFrom).Pairwise (fun a b => a < b)) := by
  have hcheck : ∀ x : Int, (m.checkInProgress x = true ↔ x ∈ m.inProgress) :=
    fun x => checkList_iff_mem hip x
  constructor
  · intro x
    rw [execStatusManager.getRevalidationRange]
    simp only [List.mem_filter, List.mem_map, List.mem_range]
    constructor
    · rintro ⟨⟨i, hi, rfl⟩, hfil⟩
      refine ⟨by omega, by omega, ?_⟩
      intro hmem
      rw [(hcheck _).mpr hmem] at hfil
      simp at hfil
    · rintro ⟨h1, h2, h3⟩
      have hfalse : m.checkInProgress x = false := by
        cases hcb : m.checkInProgress x with
        | false => rfl
        | true => exact absurd ((hcheck x).mp hcb) h3
      refine ⟨⟨(x - txFrom).toNat, by omega, by omega⟩, ?_⟩
      rw [hfalse]
      rfl
  · apply List.Pairwise.filter
    rw [List.pairwise_map]
    exact (List.pairwise_lt_range _).imp fun h => by omega

theorem searchInts_le_length (l : List Int) (v : Int) : searchInts l v ≤ l.length := by
  rw [searchInts]
  exact (List.takeWhile_prefix _).length_le

theorem all_lt_of_searchInts_eq_length {l : List Int} {v : Int}
    (h : searchInts l v = l.length) : ∀ a ∈ l, a < v := by
  intro a ha
  have hpre : l.takeWhile (fun x => decide (x < v)) <+: l := List.takeWhile_prefix _
  have heq : l.takeWhile (fun x => decide (x < v)) = l := hpre.eq_of_length h
  rw [← heq] at ha
  have := List.mem_takeWhile_imp ha
  simpa using this

theorem getLastD_mem (l : List Int) (h : l ≠ []) : l.getLastD 0 ∈ l := by
  rw [getLastD_eq_getD l h]
  exact mem_iff_getD.mpr ⟨l.length - 1, by
    have := List.length_pos.mpr h
    omega, rfl⟩

/-- In the insertion branch of `insertInList` the search index is in range. -/
theorem insertInList_branch_lt {l : List Int} {v : Int}
    (h1 : ¬ (l.length = 0 ∨ l.getLastD 0 < v)) :
    searchInts l v < l.length := by
  push_neg at h1
  rcases Nat.lt_or_ge (searchInts l v) l.length with h | h
  · exact h
  · have hx : searchInts l v = l.length :=
      le_antisymm (searchInts_le_length l v) h
    have hne : l ≠ [] := by
      intro he
      rw [he] at h1
      simp at h1
    have := all_lt_of_searchInts_eq_length hx (l.getLastD 0) (getLastD_mem l hne)
    omega

theorem take_append_drop_set : ∀ (x : Nat) (l : List Int), x < l.length → ∀ v : Int,
    (l.take (x + 1) ++ l.drop x).set x v = l.take x ++ v :: l.drop x := by
  intro x
  induction x with
  | zero =>
    intro l hx v
    cases l with
    | nil => simp at hx
    | cons a t => simp
  | succ x ih =>
    intro l hx v
    cases l with
    | nil => simp at hx
    | cons a t =>
      simp only [List.take_succ_cons, List.drop_succ_cons, List.cons_append,
        List.set_cons_succ]
      rw [ih t (by simpa using hx) v]

/-- The insertion branch rewritten as a plain sorted insertion. -/
theorem insertInList_eq (l : List Int) (v : Int) :
    insertInList l v =
      if l.length = 0 ∨ l.getLastD 0 < v then l ++ [v]
      else if searchInts l v < l.length ∧ l.getD (searchInts l v) 0 = v then l
      else l.take (searchInts l v) ++ v :: l.drop (searchInts l v) := by
  rw [insertInList]
  split
  · rfl
  · rename_i h1
    dsimp only
    split
    · rfl
    · exact take_append_drop_set (searchInts l v) l (insertInList_branch_lt h1) v

theorem mem_insertInList_of_mem {l : List Int} {a : Int} (h : a ∈ l) (v : Int) :
    a ∈ insertInList l v := by
  rw [insertInList_eq]
  split
  · exact List.mem_append_left _ h
  · split
    · exact h
    · rename_i h1 h2
      have hx := insertInList_branch_lt h1
      conv at h => rw [← List.take_append_drop (searchInts l v) l]
      rcases List.mem_append.mp h with h | h
      · exact List.mem_append_left _ h
      · exact List.mem_append_right _ (List.mem_cons_of_mem v h)

theorem self_mem_insertInList (l : List Int) (v : Int) : v ∈ insertInList l v := by
  rw [insertInList_eq]
  split
  · exact List.mem_append_right _ (List.mem_singleton.mpr rfl)
  · split
    · rename_i h1 h2
      exact searchInts_mem_of_check h2.1 h2.2
    · exact List.mem_append_right _ (List.mem_cons_self v _)

theorem mem_of_mem_insertInList {l : List Int} {a v : Int}
    (h : a ∈ insertInList l v) : a ∈ l ∨ a = v := by
  rw [insertInList_eq] at h
  split at h
  · rcases List.mem_append.mp h with h | h
    · exact Or.inl h
    · exact Or.inr (List.mem_singleton.mp h)
  · split at h
    · exact Or.inl h
    · rcases List.mem_append.mp h with h | h
      · exact Or.inl (List.mem_of_mem_take h)
      · rcases List.mem_cons.mp h with h | h
        · exact Or.inr h
        · exact Or.inl (List.mem_of_mem_drop h)

theorem removeDepStep_fixed (tx : Int) (st : execStatusManager) (k : Int) :
    ((removeDepStep tx st k).complete = st.complete ∧
     (removeDepStep tx st k).inProgress = st.inProgress ∧
     (removeDepStep tx st k).dependency = st.dependency) := by
  rw [removeDepStep]
  dsimp only
  split
  · split
    · exact ⟨rfl, rfl, rfl⟩
    · exact ⟨rfl, rfl, rfl⟩
  · exact ⟨rfl, rfl, rfl⟩

theorem removeDepStep_blocker_other (tx : Int) (st : execStatusManager) {k t : Int}
    (h : t ≠ k) : (removeDepStep tx st k).blocker t = st.blocker t := by
  rw [removeDepStep]
  dsimp only
  split
  · split
    · exact Function.update_noteq h _ _
    · exact Function.update_noteq h _ _
  · exact Function.update_noteq h _ _

theorem removeDepStep_blocker_self (tx : Int) (st : execStatusManager) (k : Int) :
    (removeDepStep tx st k).blocker k = setErase tx (st.blocker k) := by
  rw [removeDepStep]
  dsimp only
  split
  · split
    · exact Function.update_same _ _ _
    · exact Function.update_same _ _ _
  · exact Function.update_same _ _ _

theorem removeDepStep_pending_cases (tx : Int) (st : execStatusManager) (k : Int) :
    (removeDepStep tx st k).pending = st.pending ∨
    (removeDepStep tx st k).pending = insertInList st.pending k := by
  rw [removeDepStep]
  dsimp only
  split
  · split
    · exact Or.inr rfl
    · exact Or.inl rfl
  · exact Or.inl rfl

theorem removeDepStep_pending_of_blocked (tx : Int) (st : execStatusManager) (k : Int)
    (h : setErase tx (st.blocker k) ≠ []) :
    (removeDepStep tx st k).pending = st.pending := by
  rw [removeDepStep]
  dsimp only
  rw [Function.update_same]
  rw [if_neg (by simpa using fun he => h (List.length_eq_zero.mp he))]

theorem removeDepStep_pending_of_free (tx : Int) (st : execStatusManager) (k : Int)
    (hb : setErase tx (st.blocker k) = [])
    (hcm : k ∉ st.complete) (hpm : k ∉ st.pending) (him : k ∉ st.inProgress) :
    (removeDepStep tx st k).pending = insertInList st.pending k := by
  rw [removeDepStep]
  dsimp only
  rw [Function.update_same, if_pos (by rw [hb]; rfl), if_pos]
  · rfl
  · exact ⟨checkList_false_of_not_mem hcm, checkList_false_of_not_mem hpm,
      checkList_false_of_not_mem him⟩

theorem addDependencies_record (m : execStatusManager) (b d : Int)
    (h1 : ¬ (b < 0 ∨ d ≤ b)) (h2 : m.checkComplete b = false) :
    (m.addDependencies b d).2 = { m with
      dependency := (Function.update m.dependency b (setInsert d (m.dependency b)))
      blocker := (Function.update m.blocker d (setInsert b (m.blocker d))) } := by
  rw [execStatusManager.addDependencies, if_neg h1, if_neg (by simp [h2])]

theorem removeDependency_eq (m : execStatusManager) (tx : Int)
    (h : 0 < (m.dependency tx).length) :
    m.removeDependency tx =
      { (m.dependency tx).foldl (removeDepStep tx) m with
        dependency := (Function.update
          ((m.dependency tx).foldl (removeDepStep tx) m).dependency tx []) } := by
  rw [execStatusManager.removeDependency, if_pos h]

/-- The `removeDependency(2)` sweep, watching task 5 whose blocker set is
`[2, 3]` (or already `[3]`): task 5 stays off the pending list and ends with
blocker set `[3]` once visited. -/
theorem fold_phase1 (cset iset : List Int) :
    ∀ (L : List Int) (st : execStatusManager),
    st.complete = cset → st.inProgress = iset → (5 : Int) ∉ st.pending →
    (st.blocker 5 = [2, 3] ∨ st.blocker 5 = [3]) →
    ((L.foldl (removeDepStep 2) st).complete = cset ∧
     (L.foldl (removeDepStep 2) st).inProgress = iset ∧
     (L.foldl (removeDepStep 2) st).dependency = st.dependency ∧
     (5 : Int) ∉ (L.foldl (removeDepStep 2) st).pending ∧
     ((L.foldl (removeDepStep 2) st).blocker 5 = [2, 3] ∨
      (L.foldl (removeDepStep 2) st).blocker 5 = [3]) ∧
     ((5 : Int) ∈ L ∨ st.blocker 5 = [3] →
      (L.foldl (removeDepStep 2) st).blocker 5 = [3])) := by
  intro L
  induction L with
  | nil =>
    intro st h1 h2 h3 h4
    refine ⟨h1, h2, rfl, h3, h4, ?_⟩
    intro h
    rcases h with h | h
    · cases h
    · exact h
  | cons k rest ih =>
    intro st h1 h2 h3 h4
    rw [List.foldl_cons]
    have hfix := removeDepStep_fixed 2 st k
    by_cases hk : k = (5 : Int)
    · subst hk
      have hb : (removeDepStep 2 st 5).blocker 5 = [3] := by
        rw [removeDepStep_blocker_self]
        rcases h4 with h | h <;> rw [h] <;> rfl
      have hpend : (removeDepStep 2 st 5).pending = st.pending :=
        removeDepStep_pending_of_blocked 2 st 5
          (by rcases h4 with h | h <;> rw [h] <;> decide)
      obtain ⟨c1, c2, c3, c4, c5, c6⟩ := ih (removeDepStep 2 st 5)
        (hfix.1.trans h1) (hfix.2.1.trans h2) (by rw [hpend]; exact h3)
        (Or.inr hb)
      refine ⟨c1, c2, c3.trans hfix.2.2, c4, c5, ?_⟩
      intro _
      exact c6 (Or.inr hb)
    · have hb : (removeDepStep 2 st k).blocker 5 = st.blocker 5 :=
        removeDepStep_blocker_other 2 st (fun he => hk he.symm)
      have hpend : (5 : Int) ∉ (removeDepStep 2 st k).pending := by
        rcases removeDepStep_pending_cases 2 st k with h | h
        · rw [h]; exact h3
        · rw [h]
          intro hmem
          rcases mem_of_mem_insertInList hmem with hmem | hmem
          · exact h3 hmem
          · exact hk hmem.symm
      obtain ⟨c1, c2, c3, c4, c5, c6⟩ := ih (removeDepStep 2 st k)
        (hfix.1.trans h1) (hfix.2.1.trans h2) hpend (by rw [hb]; exact h4)
      refine ⟨c1, c2, c3.trans hfix.2.2, c4, c5, ?_⟩
      intro h
      apply c6
      rcases h with h | h
      · rcases List.mem_cons.mp h with h | h
        · exact absurd h.symm hk
        · exact Or.inl h
      · exact Or.inr (hb.trans h)

/-- The `removeDependency(3)` sweep, watching task 5 whose blocker set is
`[3]`: once visited, its blocker set empties and it moves to pending. -/
theorem fold_phase2 (cset iset : List Int) (hc5 : (5 : Int) ∉ cset)
    (hi5 : (5 : Int) ∉ iset) :
    ∀ (L : List Int) (st : execStatusManager),
    st.complete = cset → st.inProgress = iset →
    ((st.blocker 5 = [3] ∧ (5 : Int) ∉ st.pending) ∨
     (st.blocker 5 = [] ∧ (5 : Int) ∈ st.pending)) →
    ((L.foldl (removeDepStep 3) st).complete = cset ∧
     (L.foldl (removeDepStep 3) st).inProgress = iset ∧
     (((L.foldl (removeDepStep 3) st).blocker 5 = [3] ∧
        (5 : Int) ∉ (L.foldl (removeDepStep 3) st).pending) ∨
      ((L.foldl (removeDepStep 3) st).blocker 5 = [] ∧
        (5 : Int) ∈ (L.foldl (removeDepStep 3) st).pending)) ∧
     ((5 : Int) ∈ L ∨ st.blocker 5 = [] →
      ((L.foldl (removeDepStep 3) st).blocker 5 = [] ∧
       (5 : Int) ∈ (L.foldl (removeDepStep 3) st).pending))) := by
  intro L
  induction L with
  | nil =>
    intro st h1 h2 h4
    refine ⟨h1, h2, h4, ?_⟩
    intro h
    rcases h with h | h
    · cases h
    · rcases h4 with h4 | h4
      · rw [h4.1] at h
        cases h
      · exact h4
  | cons k rest ih =>
    intro st h1 h2 h4
    rw [List.foldl_cons]
    have hfix := removeDepStep_fixed 3 st k
    by_cases hk : k = (5 : Int)
    · subst hk
      have hnew : (removeDepStep 3 st 5).blocker 5 = [] ∧
          (5 : Int) ∈ (removeDepStep 3 st 5).pending := by
        rcases h4 with ⟨hb, hp⟩ | ⟨hb, hp⟩
        · constructor
          · rw [removeDepStep_blocker_self, hb]
            rfl
          · rw [removeDepStep_pending_of_free 3 st 5 (by rw [hb]; rfl)
              (by rw [h1] at *; exact h1 ▸ hc5) hp (by rw [h2] at *; exact h2 ▸ hi5)]
            exact self_mem_insertInList _ _
        · constructor
          · rw [removeDepStep_blocker_self, hb]
            rfl
          · rcases removeDepStep_pending_cases 3 st 5 with h | h
            · rw [h]; exact hp
            · rw [h]; exact mem_insertInList_of_mem hp 5
      obtain ⟨c1, c2, c3, c4⟩ := ih (removeDepStep 3 st 5)
        (hfix.1.trans h1) (hfix.2.1.trans h2) (Or.inr hnew)
      refine ⟨c1, c2, c3, ?_⟩
      intro _
      exact c4 (Or.inr hnew.1)
    · have hb : (removeDepStep 3 st k).blocker 5 = st.blocker 5 :=
        removeDepStep_blocker_other 3 st (fun he => hk he.symm)
      have hinv : ((removeDepStep 3 st k).blocker 5 = [3] ∧
          (5 : Int) ∉ (removeDepStep 3 st k).pending) ∨
          ((removeDepStep 3 st k).blocker 5 = [] ∧
          (5 : Int) ∈ (removeDepStep 3 st k).pending) := by
        rcases h4 with ⟨hbv, hp⟩ | ⟨hbv, hp⟩
        · left
          refine ⟨hb.trans hbv, ?_⟩
          rcases removeDepStep_pending_cases 3 st k with h | h
          · rw [h]; exact hp
          · rw [h]
            intro hmem
            rcases mem_of_mem_insertInList hmem with hmem | hmem
            · exact hp hmem
            · exact hk hmem.symm
        · right
          refine ⟨hb.trans hbv, ?_⟩
          rcases removeDepStep_pending_cases 3 st k with h | h
          · rw [h]; exact hp
          · rw [h]; exact mem_insertInList_of_mem hp k
      obtain ⟨c1, c2, c3, c4⟩ := ih (removeDepStep 3 st k)
        (hfix.1.trans h1) (hfix.2.1.trans h2) hinv
      refine ⟨c1, c2, c3, ?_⟩
      intro h
      apply c4
      rcases h with h | h
      · rcases List.mem_cons.mp h with h | h
        · exact absurd h.symm hk
        · exact Or.inl h
      · exact Or.inr (hb.trans h)

/-- A state in which task 5 already has the unrelated blocker 1. -/
def ce5 : execStatusManager :=
  { pending := []
    inProgress := []
    complete := []
    dependency := Function.update (fun _ => []) 1 [5]
    blocker := Function.update (fun _ => []) 5 [1] }

/-- C5 counterexample: in `ce5` the premises of the claim hold (2 and 3 are
not completed; 5 is not pending, in-progress or completed), yet after
`addDependencies(2,5)`, `addDependencies(3,5)`, `removeDependency(2)`,
`removeDependency(3)` the blocker set of task 5 is still `[1]` — not empty —
and task 5 has not been moved to pending. -/
theorem statusManager_dependency_counterexample :
    ((2 : Int) ∉ ce5.complete ∧ (3 : Int) ∉ ce5.complete ∧
     (5 : Int) ∉ ce5.pending ∧ (5 : Int) ∉ ce5.inProgress ∧
     (5 : Int) ∉ ce5.complete) ∧
    ((((ce5.addDependencies 2 5).2.addDependencies 3 5).2.removeDependency
        2).removeDependency 3).blocker 5 = [1] ∧
    (5 : Int) ∉ ((((ce5.addDependencies 2 5).2.addDependencies 3
        5).2.removeDependency 2).removeDependency 3).pending := by
  decide

/-- C5 (amended: additionally task 5 must have no recorded blockers at the
start): after `addDependencies(2,5)` and `addDependencies(3,5)` task 5 is
blocked; it stays blocked after `removeDependency(2)`; after
`removeDependency(3)` its blocker set is empty and it has moved to pending. -/
theorem statusManager_dependency_scenario (m : execStatusManager)
    (h2c : (2 : Int) ∉ m.complete) (h3c : (3 : Int) ∉ m.complete)
    (h5p : (5 : Int) ∉ m.pending) (h5i : (5 : Int) ∉ m.inProgress)
    (h5c : (5 : Int) ∉ m.complete) (h5b : m.blocker 5 = []) :
    (((m.addDependencies 2 5).2.addDependencies 3 5).2.isBlocked 5 = true ∧
     (((m.addDependencies 2 5).2.addDependencies 3 5).2.removeDependency
        2).isBlocked 5 = true ∧
     ((((m.addDependencies 2 5).2.addDependencies 3 5).2.removeDependency
        2).removeDependency 3).blocker 5 = [] ∧
     (5 : Int) ∈ ((((m.addDependencies 2 5).2.addDependencies 3
        5).2.removeDependency 2).removeDependency 3).pending) := by
  have hc2 : m.checkComplete 2 = false := checkList_false_of_not_mem h2c
  have hm1 := addDependencies_record m 2 5 (by decide) hc2
  have hm1c : (m.addDependencies 2 5).2.complete = m.complete := by rw [hm1]
  have hc3 : (m.addDependencies 2 5).2.checkComplete 3 = false := by
    have h3c' : (3 : Int) ∉ (m.addDependencies 2 5).2.complete := by
      rw [hm1c]
      exact h3c
    exact checkList_false_of_not_mem h3c'
  have hm2 := addDependencies_record (m.addDependencies 2 5).2 3 5 (by decide) hc3
  have hm2c : ((m.addDependencies 2 5).2.addDependencies 3 5).2.complete =
      m.complete := by rw [hm2, hm1]
  have hm2i : ((m.addDependencies 2 5).2.addDependencies 3 5).2.inProgress =
      m.inProgress := by rw [hm2, hm1]
  have hm2p : ((m.addDependencies 2 5).2.addDependencies 3 5).2.pending =
      m.pending := by rw [hm2, hm1]
  have hm1b5 : (m.addDependencies 2 5).2.blocker 5 = [2] := by
    rw [hm1]
    show Function.update m.blocker 5 (setInsert 2 (m.blocker 5)) 5 = [2]
    rw [Function.update_same, h5b]
    decide
  have hm2b5 : ((m.addDependencies 2 5).2.addDependencies 3 5).2.blocker 5 =
      [2, 3] := by
    rw [hm2]
    show Function.update (m.addDependencies 2 5).2.blocker 5
      (setInsert 3 ((m.addDependencies 2 5).2.blocker 5)) 5 = [2, 3]
    rw [Function.update_same, hm1b5]
    decide
  have hm2d2 : ((m.addDependencies 2 5).2.addDependencies 3 5).2.dependency 2 =
      setInsert 5 (m.dependency 2) := by
    rw [hm2]
    show Function.update (m.addDependencies 2 5).2.dependency 3
      (setInsert 5 ((m.addDependencies 2 5).2.dependency 3)) 2 =
      setInsert 5 (m.dependency 2)
    rw [Function.update_noteq (by decide), hm1]
    show Function.update m.dependency 2 (setInsert 5 (m.dependency 2)) 2 = _
    rw [Function.update_same]
  have hm2d3 : ((m.addDependencies 2 5).2.addDependencies 3 5).2.dependency 3 =
      setInsert 5 (m.dependency 3) := by
    rw [hm2]
    show Function.update (m.addDependencies 2 5).2.dependency 3
      (setInsert 5 ((m.addDependencies 2 5).2.dependency 3)) 3 =
      setInsert 5 (m.dependency 3)
    rw [Function.update_same, hm1]
    show setInsert 5 (Function.update m.dependency 2
      (setInsert 5 (m.dependency 2)) 3) = _
    rw [Function.update_noteq (by decide)]
  have hb2 : ((m.addDependencies 2 5).2.addDependencies 3 5).2.isBlocked 5 =
      true := by
    rw [execStatusManager.isBlocked, hm2b5]
    rfl
  have hpos1 : 0 < (((m.addDependencies 2 5).2.addDependencies 3
      5).2.dependency 2).length := by
    rw [hm2d2]
    exact setInsert_length_pos 5 (m.dependency 2)
  have hrd2 := removeDependency_eq ((m.addDependencies 2 5).2.addDependencies
    3 5).2 2 hpos1
  obtain ⟨f1, f2, f3, f4, f5, f6⟩ := fold_phase1 m.complete m.inProgress
    (((m.addDependencies 2 5).2.addDependencies 3 5).2.dependency 2)
    ((m.addDependencies 2 5).2.addDependencies 3 5).2 hm2c hm2i
    (by rw [hm2p]; exact h5p) (Or.inl hm2b5)
  have hmem5 : (5 : Int) ∈ ((m.addDependencies 2 5).2.addDependencies 3
      5).2.dependency 2 := by
    rw [hm2d2]
    exact mem_setInsert.mpr (Or.inl rfl)
  have hf3 := f6 (Or.inl hmem5)
  have hm3b5 : (((m.addDependencies 2 5).2.addDependencies 3
      5).2.removeDependency 2).blocker 5 = [3] := by
    rw [hrd2]
    exact hf3
  have hm3p : (5 : Int) ∉ (((m.addDependencies 2 5).2.addDependencies 3
      5).2.removeDependency 2).pending := by
    rw [hrd2]
    exact f4
  have hm3c : (((m.addDependencies 2 5).2.addDependencies 3
      5).2.removeDependency 2).complete = m.complete := by
    rw [hrd2]
    exact f1
  have hm3i : (((m.addDependencies 2 5).2.addDependencies 3
      5).2.removeDependency 2).inProgress = m.inProgress := by
    rw [hrd2]
    exact f2
  have hm3d3 : (((m.addDependencies 2 5).2.addDependencies 3
      5).2.removeDependency 2).dependency 3 = setInsert 5 (m.dependency 3) := by
    rw [hrd2]
    show Function.update ((((m.addDependencies 2 5).2.addDependencies 3
      5).2.dependency 2).foldl (removeDepStep 2)
      ((m.addDependencies 2 5).2.addDependencies 3 5).2).dependency 2 [] 3 = _
    rw [Function.update_noteq (by decide), f3]
    exact hm2d3
  have hb3 : (((m.addDependencies 2 5).2.addDependencies 3
      5).2.removeDependency 2).isBlocked 5 = true := by
    rw [execStatusManager.isBlocked, hm3b5]
    rfl
  have hpos2 : 0 < ((((m.addDependencies 2 5).2.addDependencies 3
      5).2.removeDependency 2).dependency 3).length := by
    rw [hm3d3]
    exact setInsert_length_pos 5 (m.dependency 3)
  have hrd3 := removeDependency_eq (((m.addDependencies 2 5).2.addDependencies
    3 5).2.removeDependency 2) 3 hpos2
  obtain ⟨g1, g2, g3, g4⟩ := fold_phase2 m.complete m.inProgress h5c h5i
    ((((m.addDependencies 2 5).2.addDependencies 3 5).2.removeDependency
      2).dependency 3)
    (((m.addDependencies 2 5).2.addDependencies 3 5).2.removeDependency 2)
    hm3c hm3i (Or.inl ⟨hm3b5, hm3p⟩)
  have hmem5b : (5 : Int) ∈ (((m.addDependencies 2 5).2.addDependencies 3
      5).2.removeDependency 2).dependency 3 := by
    rw [hm3d3]
    exact mem_setInsert.mpr (Or.inl rfl)
  have hg := g4 (Or.inl hmem5b)
  refine ⟨hb2, hb3, ?_, ?_⟩
  · rw [hrd3]
    exact hg.1
  · rw [hrd3]
    exact hg.2

/-- Witness for C5 at the empty status-manager state. -/
theorem statusManager_dependency_scenario_witness :
    ((((mkStatus [] [] []).addDependencies 2 5).2.addDependencies
        3 5).2.isBlocked 5 = true ∧
     ((((mkStatus [] [] []).addDependencies 2 5).2.addDependencies 3
        5).2.removeDependency 2).isBlocked 5 = true ∧
     (((((mkStatus [] [] []).addDependencies 2 5).2.addDependencies 3
        5).2.removeDependency 2).removeDependency 3).blocker 5 = [] ∧
     (5 : Int) ∈ (((((mkStatus [] [] []).addDependencies 2
        5).2.addDependencies 3 5).2.removeDependency 2).removeDependency
        3).pending) :=
  statusManager_dependency_scenario (mkStatus [] [] []) (by decide) (by decide)
    (by decide) (by decide) (by decide) (by decide)

theorem take_searchInts_eq (l : List Int) (v : Int) :
    l.take (searchInts l v) = l.takeWhile (fun x => decide (x < v)) :=
  (List.prefix_iff_eq_take.mp (List.takeWhile_prefix _)).symm

theorem drop_searchInts_eq (l : List Int) (v : Int) :
    l.drop (searchInts l v) = l.dropWhile (fun x => decide (x < v)) := by
  have h1 := List.take_append_drop (searchInts l v) l
  have h2 := List.takeWhile_append_dropWhile (fun x => decide (x < v)) l
  rw [take_searchInts_eq] at h1
  exact List.append_cancel_left (h1.trans h2.symm)

theorem mem_take_searchInts_lt {l : List Int} {v a : Int}
    (h : a ∈ l.take (searchInts l v)) : a < v := by
  rw [take_searchInts_eq] at h
  have := List.mem_takeWhile_imp h
  simpa using this

theorem mem_drop_searchInts_le {l : List Int} (hs : l.Pairwise (fun a b => a < b))
    {v b : Int} (h : b ∈ l.drop (searchInts l v)) : v ≤ b := by
  rw [drop_searchInts_eq] at h
  have hne := List.ne_nil_of_mem h
  have hhead : ¬ ((l.dropWhile (fun x => decide (x < v))).head hne < v) := by
    have := List.head_dropWhile_not (fun x => decide (x < v)) l hne
    simpa using this
  have hsorted : (l.dropWhile (fun x => decide (x < v))).Pairwise
      (fun a b => a < b) := hs.sublist (List.dropWhile_sublist _)
  rw [← List.head_cons_tail _ hne] at h hsorted
  rcases List.mem_cons.mp h with h | h
  · omega
  · have := (List.pairwise_cons.mp hsorted).1 b h
    omega

theorem sorted_le_getLastD {l : List Int} (hs : l.Pairwise (fun a b => a < b))
    {a : Int} (ha : a ∈ l) : a ≤ l.getLastD 0 := by
  obtain ⟨i, hi, hgi⟩ := mem_iff_getD.mp ha
  have hne : l ≠ [] := List.ne_nil_of_mem ha
  rw [getLastD_eq_getD l hne]
  rcases Nat.lt_or_ge i (l.length - 1) with h | h
  · have := sorted_getD_lt hs h (by omega)
    omega
  · have hil : i = l.length - 1 := by omega
    rw [← hgi, hil]

theorem insertInList_sorted {l : List Int} (hs : l.Pairwise (fun a b => a < b))
    (v : Int) : (insertInList l v).Pairwise (fun a b => a < b) := by
  rw [insertInList_eq]
  split
  · rename_i h
    rw [List.pairwise_append]
    refine ⟨hs, by simp, ?_⟩
    intro a ha b hb
    rw [List.mem_singleton.mp hb]
    rcases h with h | h
    · rw [List.length_eq_zero.mp h] at ha
      cases ha
    · have := sorted_le_getLastD hs ha
      omega
  · split
    · exact hs
    · rename_i h1 h2
      have hx := insertInList_branch_lt h1
      have hvlt : ∀ b ∈ l.drop (searchInts l v), v < b := by
        intro b hb
        have hle := mem_drop_searchInts_le hs hb
        rcases eq_or_lt_of_le hle with he | he
        · exfalso
          apply h2
          refine ⟨hx, ?_⟩
          rw [← he] at hb
          exact (searchInts_check_of_mem (hs.imp fun h => le_of_lt h)
            ((List.drop_sublist _ _).mem hb)).2
        · exact he
      rw [List.pairwise_append]
      refine ⟨hs.sublist (List.take_sublist _ _), ?_, ?_⟩
      · rw [List.pairwise_cons]
        exact ⟨hvlt, hs.sublist (List.drop_sublist _ _)⟩
      · intro a ha b hb
        have hav : a < v := mem_take_searchInts_lt ha
        rcases List.mem_cons.mp hb with rfl | hb
        · exact hav
        · have := hvlt b hb
          omega

theorem removeFromList_sublist {l : List Int} {v : Int} {e : Bool}
    {l' : List Int} (h : removeFromList l v e = some l') :
    List.Sublist l' l := by
  rw [removeFromList] at h
  split at h
  · split at h
    · split at h
      · cases h
      · cases h
        exact List.Sublist.refl l
    · split at h
      · cases h
        exact List.drop_sublist 1 l
      · split at h
        · cases h
          exact List.take_sublist _ l
        · cases h
          have e1 : l.drop (searchInts l v + 1) =
              (l.drop (searchInts l v)).drop 1 := by
            rw [List.drop_drop, Nat.add_comm]
          have h2 : List.Sublist
              (l.take (searchInts l v) ++ l.drop (searchInts l v + 1))
              (l.take (searchInts l v) ++ l.drop (searchInts l v)) := by
            rw [e1]
            exact List.Sublist.append_left (List.drop_sublist _ _) _
          rw [List.take_append_drop] at h2
          exact h2
  · cases h

theorem removeFromList_mem_of_expect {l : List Int} {v : Int} {l' : List Int}
    (h : removeFromList l v true = some l') : v ∈ l := by
  rw [removeFromList] at h
  split at h
  · rename_i hx
    split at h
    · split at h
      · cases h
      · rename_i hf
        exact absurd rfl hf
    · rename_i hne
      rw [not_not] at hne
      exact searchInts_mem_of_check hx hne
  · cases h

theorem not_mem_drop_succ_searchInts {l : List Int}
    (hs : l.Pairwise (fun a b => a < b)) {v : Int}
    (hx : searchInts l v < l.length) (hgv : l.getD (searchInts l v) 0 = v) :
    v ∉ l.drop (searchInts l v + 1) := by
  intro hv
  have hpw := hs
  rw [← List.take_append_drop (searchInts l v + 1) l] at hpw
  have hall := (List.pairwise_append.mp hpw).2.2
  have hvtake : v ∈ l.take (searchInts l v + 1) := by
    refine mem_iff_getD.mpr ⟨searchInts l v, ?_, ?_⟩
    · rw [List.length_take]
      omega
    · rw [getD_take_eq l (by omega) hx]
      exact hgv
  exact lt_irrefl v (hall v hvtake v hv)

theorem removeFromList_not_mem {l : List Int}
    (hs : l.Pairwise (fun a b => a < b)) {v : Int} {e : Bool} {l' : List Int}
    (h : removeFromList l v e = some l') : v ∉ l' := by
  have hnt : v ∉ l.take (searchInts l v) := fun hv =>
    lt_irrefl v (mem_take_searchInts_lt hv)
  rw [removeFromList] at h
  split at h
  · rename_i hx
    split at h
    · rename_i hne
      split at h
      · cases h
      · cases h
        intro hv
        exact hne ((searchInts_check_of_mem (hs.imp fun h => le_of_lt h) hv).2)
    · rename_i hne
      rw [not_not] at hne
      have hnd := not_mem_drop_succ_searchInts hs hx hne
      split at h
      · rename_i h0
        cases h
        rw [← Nat.zero_add 1, ← h0]
        exact hnd
      · split at h
        · rename_i hlast
          cases h
          rw [← hlast]
          exact hnt
        · cases h
          intro hv
          rcases List.mem_append.mp hv with hv | hv
          · exact hnt hv
          · exact hnd hv
  · cases h

/-- Witness for C6: completed = [0, 1, 2, 3], in-progress = [2], from 1. -/
theorem getRevalidationRange_correct_witness :
    ((∀ x : Int, x ∈ (mkStatus [] [2] [0, 1, 2, 3]).getRevalidationRange 1 ↔
        (1 ≤ x ∧ x ≤ (mkStatus [] [2] [0, 1, 2, 3]).maxAllComplete ∧
         x ∉ (mkStatus [] [2] [0, 1, 2, 3]).inProgress)) ∧
     ((mkStatus [] [2] [0, 1, 2, 3]).getRevalidationRange 1).Pairwise
       (fun a b => a < b)) :=
  getRevalidationRange_correct (mkStatus [] [2] [0, 1, 2, 3]) 1
    (by decide) (by decide) (by decide)

/-- The structural invariant of `execStatusManager`: the three index lists are
strictly sorted (as `insertInList` / `removeFromList` keep them) and pairwise
disjoint. -/
def StatusInv (m : execStatusManager) : Prop :=
  m.pending.Pairwise (fun a b => a < b) ∧
  m.inProgress.Pairwise (fun a b => a < b) ∧
  m.complete.Pairwise (fun a b => a < b) ∧
  (∀ x, x ∈ m.pending → x ∉ m.inProgress) ∧
  (∀ x, x ∈ m.pending → x ∉ m.complete) ∧
  (∀ x, x ∈ m.inProgress → x ∉ m.complete)

theorem not_mem_of_checkList_false {l : List Int}
    (hs : l.Pairwise (fun a b => a ≤ b)) {tx : Int}
    (h : (if searchInts l tx < l.length ∧ l.getD (searchInts l tx) 0 = tx
        then true else false) = false) : tx ∉ l := by
  intro hm
  have ht := (checkList_iff_mem hs tx).mpr hm
  rw [ht] at h
  exact Bool.noConfusion h

theorem newStatusManager_inv (n : Nat) : StatusInv (newStatusManager n) := by
  have hip : (newStatusManager n).inProgress = [] := rfl
  have hc : (newStatusManager n).complete = [] := rfl
  refine ⟨?_, ?_, ?_, ?_, ?_, ?_⟩
  · show ((List.range n).map Int.ofNat).Pairwise (fun a b => a < b)
    rw [List.pairwise_map]
    exact (List.pairwise_lt_range n).imp (fun h => Int.ofNat_lt.mpr h)
  · rw [hip]
    exact List.Pairwise.nil
  · rw [hc]
    exact List.Pairwise.nil
  · intro x _ hx
    rw [hip] at hx
    cases hx
  · intro x _ hx
    rw [hc] at hx
    cases hx
  · intro x _ hx
    rw [hc] at hx
    cases hx

theorem takeNextPending_inv {m : execStatusManager} (h : StatusInv m) :
    StatusInv (m.takeNextPending).2 := by
  obtain ⟨hp, hip, hc, hdpi, hdpc, hdic⟩ := h
  cases hm : m.pending with
  | nil =>
    have he : (m.takeNextPending).2 = m := by
      rw [execStatusManager.takeNextPending, hm]
    rw [he]
    exact ⟨hp, hip, hc, hdpi, hdpc, hdic⟩
  | cons x rest =>
    have he : (m.takeNextPending).2 =
        { m with pending := rest, inProgress := insertInList m.inProgress x } := by
      rw [execStatusManager.takeNextPending, hm]
    rw [hm] at hp hdpi hdpc
    rw [he]
    refine ⟨(List.pairwise_cons.mp hp).2, insertInList_sorted hip x, hc,
      ?_, ?_, ?_⟩
    · intro a ha hmem
      rcases mem_of_mem_insertInList hmem with h2 | h2
      · exact hdpi a (List.mem_cons_of_mem x ha) h2
      · rw [h2] at ha
        exact lt_irrefl x ((List.pairwise_cons.mp hp).1 x ha)
    · intro a ha
      exact hdpc a (List.mem_cons_of_mem x ha)
    · intro a ha
      rcases mem_of_mem_insertInList ha with h2 | h2
      · exact hdic a h2
      · rw [h2]
        exact hdpc x (List.mem_cons_self x rest)

theorem markComplete_inv {m m' : execStatusManager} (h : StatusInv m) {tx : Int}
    (he : m.markComplete tx = some m') : StatusInv m' := by
  obtain ⟨hp, hip, hc, hdpi, hdpc, hdic⟩ := h
  rw [execStatusManager.markComplete] at he
  cases hrm : removeFromList m.inProgress tx true with
  | none =>
    rw [hrm] at he
    cases he
  | some l =>
    rw [hrm] at he
    have he2 : some ({ m with inProgress := l, complete := insertInList m.complete tx } : execStatusManager) = some m' := he
    cases he2
    have htxin : tx ∈ m.inProgress := removeFromList_mem_of_expect hrm
    have hsub := removeFromList_sublist hrm
    have hnm : tx ∉ l := removeFromList_not_mem hip hrm
    refine ⟨hp, List.Pairwise.sublist hsub hip, insertInList_sorted hc tx,
      ?_, ?_, ?_⟩
    · intro a ha hmem
      exact hdpi a ha (hsub.mem hmem)
    · intro a ha hmem
      rcases mem_of_mem_insertInList hmem with h2 | h2
      · exact hdpc a ha h2
      · rw [h2] at ha
        exact hdpi tx ha htxin
    · intro a ha hmem
      rcases mem_of_mem_insertInList hmem with h2 | h2
      · exact hdic a (hsub.mem ha) h2
      · rw [h2] at ha
        exact hnm ha

theorem pushPending_inv {m : execStatusManager} (h : StatusInv m) {tx : Int}
    (hipx : tx ∉ m.inProgress) (hcx : tx ∉ m.complete) :
    StatusInv (m.pushPending tx) := by
  obtain ⟨h1, h2, h3, h4, h5, h6⟩ := h
  refine ⟨insertInList_sorted h1 tx, h2, h3, ?_, ?_, h6⟩
  · intro a ha
    rcases mem_of_mem_insertInList ha with h7 | h7
    · exact h4 a h7
    · rw [h7]
      exact hipx
  · intro a ha
    rcases mem_of_mem_insertInList ha with h7 | h7
    · exact h5 a h7
    · rw [h7]
      exact hcx

theorem clearInProgress_inv {m m' : execStatusManager} (h : StatusInv m)
    {tx : Int} (he : m.clearInProgress tx = some m') : StatusInv m' := by
  obtain ⟨h1, h2, h3, h4, h5, h6⟩ := h
  rw [execStatusManager.clearInProgress] at he
  cases hrm : removeFromList m.inProgress tx true with
  | none =>
    rw [hrm] at he
    cases he
  | some l =>
    rw [hrm] at he
    have he2 : some ({ m with inProgress := l } : execStatusManager)
        = some m' := he
    cases he2
    have hsub := removeFromList_sublist hrm
    exact ⟨h1, List.Pairwise.sublist hsub h2, h3,
      fun a ha hm2 => h4 a ha (hsub.mem hm2), h5,
      fun a ha => h6 a (hsub.mem ha)⟩

theorem clearComplete_inv {m m' : execStatusManager} (h : StatusInv m)
    {tx : Int} (he : m.clearComplete tx = some m') : StatusInv m' := by
  obtain ⟨h1, h2, h3, h4, h5, h6⟩ := h
  rw [execStatusManager.clearComplete] at he
  cases hrm : removeFromList m.complete tx false with
  | none =>
    rw [hrm] at he
    cases he
  | some l =>
    rw [hrm] at he
    have he2 : some ({ m with complete := l } : execStatusManager)
        = some m' := he
    cases he2
    have hsub := removeFromList_sublist hrm
    exact ⟨h1, h2, List.Pairwise.sublist hsub h3, h4,
      fun a ha hm2 => h5 a ha (hsub.mem hm2),
      fun a ha hm2 => h6 a ha (hsub.mem hm2)⟩

theorem clearPending_inv {m m' : execStatusManager} (h : StatusInv m)
    {tx : Int} (he : m.clearPending tx = some m') : StatusInv m' := by
  obtain ⟨h1, h2, h3, h4, h5, h6⟩ := h
  rw [execStatusManager.clearPending] at he
  cases hrm : removeFromList m.pending tx false with
  | none =>
    rw [hrm] at he
    cases he
  | some l =>
    rw [hrm] at he
    have he2 : some ({ m with pending := l } : execStatusManager)
        = some m' := he
    cases he2
    have hsub := removeFromList_sublist hrm
    exact ⟨List.Pairwise.sublist hsub h1, h2, h3,
      fun a ha => h4 a (hsub.mem ha),
      fun a ha => h5 a (hsub.mem ha), h6⟩

theorem addDependencies_lists (m : execStatusManager) (b d : Int) :
    ((m.addDependencies b d).2.pending = m.pending ∧
     (m.addDependencies b d).2.inProgress = m.inProgress ∧
     (m.addDependencies b d).2.complete = m.complete) := by
  rw [execStatusManager.addDependencies]
  split
  · exact ⟨rfl, rfl, rfl⟩
  · split
    · exact ⟨rfl, rfl, rfl⟩
    · exact ⟨rfl, rfl, rfl⟩

theorem addDependencies_inv {m : execStatusManager} (h : StatusInv m)
    (b d : Int) : StatusInv (m.addDependencies b d).2 := by
  obtain ⟨hl1, hl2, hl3⟩ := addDependencies_lists m b d
  obtain ⟨h1, h2, h3, h4, h5, h6⟩ := h
  rw [StatusInv, hl1, hl2, hl3]
  exact ⟨h1, h2, h3, h4, h5, h6⟩

theorem removeDepStep_inv {m : execStatusManager} (h : StatusInv m)
    (tx k : Int) : StatusInv (removeDepStep tx m k) := by
  obtain ⟨h1, h2, h3, h4, h5, h6⟩ := h
  rw [removeDepStep]
  dsimp only
  split
  · split
    · rename_i hchk
      obtain ⟨hcc, hcp, hci⟩ := hchk
      refine pushPending_inv ⟨h1, h2, h3, h4, h5, h6⟩ ?_ ?_
      · exact not_mem_of_checkList_false (h2.imp fun h => le_of_lt h) hci
      · exact not_mem_of_checkList_false (h3.imp fun h => le_of_lt h) hcc
    · exact ⟨h1, h2, h3, h4, h5, h6⟩
  · exact ⟨h1, h2, h3, h4, h5, h6⟩

theorem foldl_removeDepStep_inv (tx : Int) :
    ∀ (ks : List Int) (m : execStatusManager), StatusInv m →
      StatusInv (ks.foldl (removeDepStep tx) m)
  | [], _, h => h
  | k :: ks, m, h => foldl_removeDepStep_inv tx ks _ (removeDepStep_inv h tx k)

theorem removeDependency_inv {m : execStatusManager} (h : StatusInv m)
    (tx : Int) : StatusInv (m.removeDependency tx) := by
  rw [execStatusManager.removeDependency]
  split
  · exact foldl_removeDepStep_inv tx (m.dependency tx) m h
  · exact h

theorem pushPendingSet_cons (m : execStatusManager) (v : Int) (vs : List Int) :
    m.pushPendingSet (v :: vs) =
      (if m.checkComplete v
       then (m.clearComplete v).map fun x => x.pushPending v
       else some (m.pushPending v)).bind
        fun a => a.pushPendingSet vs := rfl

theorem pushPendingSetStep_inv {m a : execStatusManager} (h : StatusInv m)
    {v : Int} (hv : v ∉ m.inProgress)
    (he : (if m.checkComplete v
           then (m.clearComplete v).map fun x => x.pushPending v
           else some (m.pushPending v)) = some a) :
    StatusInv a ∧ a.inProgress = m.inProgress := by
  obtain ⟨h1, h2, h3, h4, h5, h6⟩ := h
  split at he
  · rw [execStatusManager.clearComplete] at he
    cases hrm : removeFromList m.complete v false with
    | none =>
      rw [hrm] at he
      cases he
    | some l =>
      rw [hrm] at he
      have he2 : some (({ m with complete := l } :
          execStatusManager).pushPending v) = some a := he
      cases he2
      have hsub := removeFromList_sublist hrm
      have hnm : v ∉ l := removeFromList_not_mem h3 hrm
      refine ⟨?_, rfl⟩
      exact @pushPending_inv ({ m with complete := l })
        ⟨h1, h2, List.Pairwise.sublist hsub h3, h4,
          fun x hx hm2 => h5 x hx (hsub.mem hm2),
          fun x hx hm2 => h6 x hx (hsub.mem hm2)⟩ v hv hnm
  · rename_i hcv
    cases he
    have hvc : v ∉ m.complete := by
      intro hm2
      exact hcv ((checkList_iff_mem (h3.imp fun h => le_of_lt h) v).mpr hm2)
    exact ⟨pushPending_inv ⟨h1, h2, h3, h4, h5, h6⟩ hv hvc, rfl⟩

theorem pushPendingSet_inv :
    ∀ (s : List Int) (m m' : execStatusManager), StatusInv m →
      (∀ v ∈ s, v ∉ m.inProgress) → m.pushPendingSet s = some m' →
      StatusInv m' ∧ m'.inProgress = m.inProgress := by
  intro s
  induction s with
  | nil =>
    intro m m' h _ he
    have he2 : some m = some m' := he
    cases he2
    exact ⟨h, rfl⟩
  | cons v vs ih =>
    intro m m' h hs he
    rw [pushPendingSet_cons] at he
    cases hstep : (if m.checkComplete v
        then (m.clearComplete v).map fun x => x.pushPending v
        else some (m.pushPending v)) with
    | none =>
      rw [hstep] at he
      cases he
    | some a =>
      rw [hstep] at he
      rw [Option.some_bind] at he
      obtain ⟨hinv, hips⟩ :=
        pushPendingSetStep_inv ⟨h.1, h.2.1, h.2.2.1, h.2.2.2.1, h.2.2.2.2.1,
          h.2.2.2.2.2⟩ (hs v (List.mem_cons_self v vs)) hstep
      obtain ⟨hinv2, hips2⟩ := ih a m' hinv
        (fun w hw => by
          rw [hips]
          exact hs w (List.mem_cons_of_mem v hw)) he
      exact ⟨hinv2, hips2.trans hips⟩

/-- The states of `execStatusManager` reachable from `newStatusManager` by
the manager's operations, with `pushPending` and `pushPendingSet` applied as
the code applies them: `pushPending` only to an index that is neither
in-progress nor completed (its callers `removeDepStep` and `pushPendingSet`
check exactly this), and `pushPendingSet` only to indices that are not
in-progress (it clears a completed index itself before pushing it). -/
inductive Reach : execStatusManager → Prop where
  | init (n : Nat) : Reach (newStatusManager n)
  | takeNext {m : execStatusManager} : Reach m → Reach (m.takeNextPending).2
  | markComplete {m m' : execStatusManager} (tx : Int) :
      Reach m → m.markComplete tx = some m' → Reach m'
  | pushPending {m : execStatusManager} (tx : Int) :
      Reach m → tx ∉ m.inProgress → tx ∉ m.complete →
      Reach (m.pushPending tx)
  | pushPendingSet {m m' : execStatusManager} (s : List Int) :
      Reach m → (∀ v ∈ s, v ∉ m.inProgress) → m.pushPendingSet s = some m' →
      Reach m'
  | clearInProgress {m m' : execStatusManager} (tx : Int) :
      Reach m → m.clearInProgress tx = some m' → Reach m'
  | clearComplete {m m' : execStatusManager} (tx : Int) :
      Reach m → m.clearComplete tx = some m' → Reach m'
  | clearPending {m m' : execStatusManager} (tx : Int) :
      Reach m → m.clearPending tx = some m' → Reach m'
  | addDeps {m : execStatusManager} (b d : Int) :
      Reach m → Reach (m.addDependencies b d).2
  | removeDep {m : execStatusManager} (tx : Int) :
      Reach m → Reach (m.removeDependency tx)

theorem reach_statusInv {m : execStatusManager} (h : Reach m) : StatusInv m := by
  induction h with
  | init n => exact newStatusManager_inv n
  | takeNext _ ih => exact takeNextPending_inv ih
  | markComplete tx _ he ih => exact markComplete_inv ih he
  | pushPending tx _ hip hcx ih => exact pushPending_inv ih hip hcx
  | pushPendingSet s _ hs he ih => exact (pushPendingSet_inv s _ _ ih hs he).1
  | clearInProgress tx _ he ih => exact clearInProgress_inv ih he
  | clearComplete tx _ he ih => exact clearComplete_inv ih he
  | clearPending tx _ he ih => exact clearPending_inv ih he
  | addDeps b d _ ih => exact addDependencies_inv ih b d
  | removeDep tx _ ih => exact removeDependency_inv ih tx

/-- C7 counterexample to the claim as stated: from `newStatusManager 1`,
`takeNextPending` moves index 0 into the in-progress list, and a bare
`pushPending 0` — one of the operations the claim quantifies over — then
re-inserts 0 into the pending list, so index 0 is in two of the three sets
at once. -/
theorem statusManager_disjoint_counterexample :
    (((newStatusManager 1).takeNextPending.2.pushPending 0).pending = [0] ∧
     ((newStatusManager 1).takeNextPending.2.pushPending 0).inProgress
       = [0]) := by
  exact ⟨by decide, by decide⟩

/-- C7 (amended): in every state reachable from `newStatusManager` by the
manager's operations, with `pushPending` applied only to an index that is
neither in-progress nor completed and `pushPendingSet` only to indices that
are not in-progress — exactly the discipline the code's call sites enforce —
the pending, in-progress and completed lists are pairwise disjoint: no task
index is in two of the three sets at once. -/
theorem statusManager_disjoint {m : execStatusManager} (h : Reach m) :
    ((∀ x, x ∈ m.pending → x ∉ m.inProgress) ∧
     (∀ x, x ∈ m.pending → x ∉ m.complete) ∧
     (∀ x, x ∈ m.inProgress → x ∉ m.complete)) := by
  obtain ⟨_, _, _, h4, h5, h6⟩ := reach_statusInv h
  exact ⟨h4, h5, h6⟩

/-- Witness for C7: the state after `takeNextPending` on a fresh two-task
manager (pending = [1], inProgress = [0]) is reachable and pairwise
disjoint. -/
theorem statusManager_disjoint_witness :
    ((∀ x, x ∈ ((newStatusManager 2).takeNextPending).2.pending →
        x ∉ ((newStatusManager 2).takeNextPending).2.inProgress) ∧
     (∀ x, x ∈ ((newStatusManager 2).takeNextPending).2.pending →
        x ∉ ((newStatusManager 2).takeNextPending).2.complete) ∧
     (∀ x, x ∈ ((newStatusManager 2).takeNextPending).2.inProgress →
        x ∉ ((newStatusManager 2).takeNextPending).2.complete)) :=
  statusManager_disjoint (Reach.takeNext (Reach.init 2))

end Erigon
